import Mathlib

/-!
Token-list synthesis and reconciliation (`internal/processor/updaters_auto.go`)

A shallow embedding of the Binance token-list updater and the properties of its
aggregation, sorting and merge steps.

Modelling conventions.

* A Go slice is `Slice α = Option (List α)`: `none` is the nil slice, `some l` a
  non-nil slice with elements `l`.  `len` does not distinguish `nil` from an empty
  slice, `reflect.DeepEqual` does; structural equality on `Slice` is `reflect.DeepEqual`.
  Slices are values: the pair slices of distinct tokens are taken not to overlap partially
  in memory (this holds for every slice built by `generateTokenList` or decoded from JSON).
* A Go string is a Lean `String`; `<` on strings is `strLess`, the lexicographic order on
  code points, which on well-formed UTF-8 text is Go's byte-wise order.
* Go `int` is 64 bits wide; `addInt` wraps around as Go's `+` does.
* A Go `map[string]V` that is only indexed is a function `String → Option V`; the one map
  that is ranged over (`pairsList`) is the list of its distinct keys together with an
  arbitrary enumeration order `MapOrder`.
* Library code outside the repository (go-primitives, assets-go-libs, go-libs) is the
  parameter `Lib`, extended to `BootLib` for the asset bootstrap; the file system and the
  clock are the parameter `World`, extended to `Disk` where files are created.
* Effects are the calls of writing library functions, kept in order; a call that returns an
  error leaves the files as they were.
-/

namespace Processor

/-! ## Go values -/

/-- A Go slice: `none` is nil, `some l` is a non-nil slice holding `l`. -/
abbrev Slice (α : Type) := Option (List α)

/-- The elements of a slice; the nil slice has none. -/
def Slice.toList {α : Type} : Slice α → List α
  | none => []
  | some l => l

/-- Go `len(s)`. -/
def Slice.len {α : Type} (s : Slice α) : Nat := (Slice.toList s).length

/-- Lexicographic comparison of code-point sequences. -/
def lexLess : List Nat → List Nat → Bool
  | [], [] => false
  | [], _ :: _ => true
  | _ :: _, [] => false
  | a :: as, b :: bs => if a < b then true else if b < a then false else lexLess as bs

/-- The code points of a string. -/
def codes (s : String) : List Nat := s.toList.map Char.toNat

/-- Go `s < t` on strings. -/
def strLess (s t : String) : Bool := lexLess (codes s) (codes t)

/-- Width of Go `int`. -/
def intBits : Nat := 64

/-- Largest Go `int`. -/
def maxInt : Int := 2 ^ (intBits - 1) - 1

/-- Smallest Go `int`. -/
def minInt : Int := -(2 ^ (intBits - 1))

/-- Two's-complement wrap-around into the range of Go `int`. -/
def wrapInt (z : Int) : Int := (z + 2 ^ (intBits - 1)) % 2 ^ intBits - 2 ^ (intBits - 1)

/-- Go `a + b` on `int`. -/
def addInt (a b : Int) : Int := wrapInt (a + b)

/-! ## Library types -/

/-- The fields of `tokenlist.Pair`. -/
structure Pair where
  Base : String
  LotSize : String
  TickSize : String
  deriving DecidableEq

/-- The fields of `tokenlist.Token`. -/
structure Token where
  Asset : String
  /-- The field `Type`, a `types.TokenType`. -/
  Type_ : String
  Address : String
  Name : String
  Symbol : String
  Decimals : Nat
  LogoURI : String
  Pairs : Slice Pair
  deriving DecidableEq

/-- The version of a token list document, `tokenlist.Version`. -/
structure Version where
  Major : Int
  deriving DecidableEq

/-- The persisted token list document, `tokenlist.Model`. -/
structure Model where
  Name : String
  LogoURI : String
  Timestamp : String
  Tokens : Slice Token
  Version : Version
  deriving DecidableEq

/-- One live trading pair, `binance.MarketPair`; the sizes are the decimals as fetched. -/
structure MarketPair where
  BaseAssetSymbol : String
  QuoteAssetSymbol : String
  LotSize : String
  TickSize : String
  deriving DecidableEq

/-- The fields of `binance.Token` the processor reads. -/
structure RawToken where
  Name : String
  OriginalSymbol : String
  Symbol : String
  deriving DecidableEq

/-- The zero value of `binance.Token`, what indexing a map yields for an absent key. -/
def RawToken.zero : RawToken := ⟨"", "", ""⟩

/-- The fields of `coin.Coin` the processor reads. -/
structure Coin where
  ID : Nat
  Handle : String
  Symbol : String
  Name : String
  Decimals : Nat
  deriving DecidableEq

/-- The field of `info.AssetModel` the processor reads; `none` is a nil pointer. -/
structure AssetModel where
  Status : Option String
  deriving DecidableEq

/-- The getter `(*AssetModel).GetStatus`: the status, or the empty string when unset. -/
def AssetModel.GetStatus (a : AssetModel) : String := a.Status.getD ""

/-- Library constants and pure library functions used by the processor. -/
structure Lib where
  /-- The table `coin.Coins`. -/
  Coins : Nat → Coin
  /-- The function `assetlib.BuildID`. -/
  BuildID : Nat → String → String
  /-- The function `numbers.ToSatoshi`. -/
  ToSatoshi : String → Int
  /-- The function `path.GetAssetInfoPath`. -/
  GetAssetInfoPath : String → String → String
  /-- The function `path.GetTokenListPath` at `path.TokenlistDefault`. -/
  GetTokenListPath : String → String
  /-- The function `path.GetChainLogoURL`. -/
  GetChainLogoURL : String → String → String
  /-- The function `path.GetAssetLogoURL`. -/
  GetAssetLogoURL : String → String → String → String
  /-- The setting `config.Default.URLs.AssetsApp`. -/
  AssetsApp : String
  /-- The setting `config.Default.URLs.Logo`. -/
  Logo : String
  /-- The constant `types.Coin`. -/
  TypeCoin : String
  /-- The constant `types.BEP2`. -/
  TypeBEP2 : String

/-- The constant `coin.BINANCE`. -/
def BINANCE : Nat := 714

/-- The constant `activeStatus`. -/
def activeStatus : String := "active"

/-- The file system and clock as one run observes them. -/
structure World where
  /-- Reading a path as `info.AssetModel` with `fileLib.ReadJSONFile`; `none` is an error. -/
  readAssetInfo : String → Option AssetModel
  /-- Reading a path as `tokenlist.Model` with `fileLib.ReadJSONFile`; `none` is an error. -/
  readTokenList : String → Option Model
  /-- The formatted current time, `time.Now().Format(config.Default.TimeFormat)`. -/
  now : String
  /-- The error `fileLib.CreateJSONFile` returns for a path and document; `none` is success. -/
  createJSONFile : String → Model → Option String

/-- An enumeration order for the keys of a Go map: some rearrangement of the keys. -/
structure MapOrder where
  /-- The order in which `range` visits the keys. -/
  enum : List String → List String
  /-- Every key is visited exactly once. -/
  perm : ∀ ks, (enum ks).Perm ks

/-! ## `sort.Slice` -/

/-- The inner loop of Go's insertion sort, `for j := i; j > a && less(j, j-1); j--`, on the
already sorted prefix held in reverse: `x` moves left while it is less than its left
neighbour. -/
def sink {α : Type} (less : α → α → Bool) (x : α) : List α → List α
  | [] => [x]
  | y :: ys => if less x y then y :: sink less x ys else x :: y :: ys

/-- The call `sort.Slice(xs, less)`, as the insertion sort by which every Go release sorts a
slice of up to 6 elements; on a longer slice Go may leave elements that compare equal in
another order.  The theorems quantified over all slices use only that the result is a
rearrangement ordered by `less`, which every `sort.Slice` guarantees; evaluations are on
slices of at most 3 elements. -/
def sortSlice {α : Type} (less : α → α → Bool) (xs : List α) : List α :=
  (xs.foldl (fun acc x => sink less x acc) []).reverse

/-- A comparison is a strict weak order when it is asymmetric and its negation is transitive. -/
structure StrictWeak {α : Type} (less : α → α → Bool) : Prop where
  asymm : ∀ a b, less a b = true → less b a = false
  negTrans : ∀ a b c, less a b = false → less b c = false → less a c = false

/-! ## The processor -/

/-- The function `countTotalPairs`. -/
def countTotalPairs (tokens : List Token) : Nat :=
  tokens.foldl (fun counter token => counter + Slice.len token.Pairs) 0

/-- The comparison `sortTokens` passes to `sort.Slice` for tokens. -/
def tokenLess (a b : Token) : Bool :=
  if Slice.len a.Pairs ≠ Slice.len b.Pairs then decide (Slice.len a.Pairs > Slice.len b.Pairs)
  else strLess a.Address b.Address

/-- The comparison `sortTokens` passes to `sort.Slice` for the pairs of a token. -/
def pairLess (a b : Pair) : Bool := strLess a.Base b.Base

/-- The function `sortTokens`: the slice after the call.  The second loop sorts each token's
pair slice in place, and the loop variable shares that slice with the caller's token. -/
def sortTokens (tokens : List Token) : List Token :=
  (sortSlice tokenLess tokens).map
    (fun token => { token with Pairs := Option.map (sortSlice pairLess) token.Pairs })

/-- The function `getAssetIDSymbol`. -/
def getAssetIDSymbol (L : Lib) (tokenID nativeCoinID : String) (coinType : Nat) : String :=
  if tokenID = nativeCoinID then L.BuildID coinType "" else L.BuildID coinType tokenID

/-- The function `getTokenType`. -/
def getTokenType (L : Lib) (symbol nativeCoinSymbol tokenType : String) : String :=
  if symbol = nativeCoinSymbol then L.TypeCoin else tokenType

/-- The function `getLogoURI`. -/
def getLogoURI (L : Lib) (id githubChainFolder nativeCoinSymbol : String) : String :=
  if id = nativeCoinSymbol then L.GetChainLogoURL L.AssetsApp githubChainFolder
  else L.GetAssetLogoURL L.AssetsApp githubChainFolder id

/-- The function `getTokenName`. -/
def getTokenName (L : Lib) (t : RawToken) : String :=
  if t.Symbol = (L.Coins BINANCE).Symbol ∧ t.Name = "Binance Chain Native Token" then
    "BNB Beacon Chain"
  else t.Name

/-- The function `getPair`; `strconv.FormatInt(n, 10)` is the decimal numeral of `n`. -/
def getPair (L : Lib) (marketPair : MarketPair) : Pair :=
  { Base := getAssetIDSymbol L marketPair.BaseAssetSymbol (L.Coins BINANCE).Symbol BINANCE
    LotSize := toString (L.ToSatoshi marketPair.LotSize)
    TickSize := toString (L.ToSatoshi marketPair.TickSize) }

/-- The function `isTokenExistOrActive`. -/
def isTokenExistOrActive (L : Lib) (W : World) (symbol : String) : Bool :=
  if symbol = (L.Coins BINANCE).Symbol then true
  else
    match W.readAssetInfo (L.GetAssetInfoPath (L.Coins BINANCE).Handle symbol) with
    | none => false
    | some infoAsset => if infoAsset.GetStatus ≠ activeStatus then false else true

/-- The asset-info paths one call of `isTokenExistOrActive` reads. -/
def oracleReads (L : Lib) (symbol : String) : List String :=
  if symbol = (L.Coins BINANCE).Symbol then []
  else [L.GetAssetInfoPath (L.Coins BINANCE).Handle symbol]

/-- The maps `generateTokenList` fills while walking the market pairs, and the asset-info
paths read so far. -/
structure Aggregate where
  /-- The map `pairsMap`: the pairs collected for a quote symbol; `none` is an absent key. -/
  pairsMap : String → Option (List Pair)
  /-- The keys of the map `pairsList`, in the order of their first insertion. -/
  pairsList : List String
  /-- The asset-info paths read by the oracle, in order. -/
  reads : List String

/-- Insertion of a key into a Go map used as a set. -/
def setInsert (ks : List String) (k : String) : List String :=
  if k ∈ ks then ks else ks ++ [k]

/-- One iteration of the loop over `marketPairs` in `generateTokenList`. -/
def aggregateStep (L : Lib) (W : World) (st : Aggregate) (marketPair : MarketPair) : Aggregate :=
  if isTokenExistOrActive L W marketPair.BaseAssetSymbol = false then
    { st with reads := st.reads ++ oracleReads L marketPair.BaseAssetSymbol }
  else if isTokenExistOrActive L W marketPair.QuoteAssetSymbol = false then
    { st with reads := st.reads ++ oracleReads L marketPair.BaseAssetSymbol
                ++ oracleReads L marketPair.QuoteAssetSymbol }
  else
    let tokenSymbol := marketPair.QuoteAssetSymbol
    let val : List Pair :=
      match st.pairsMap tokenSymbol with
      | some val => val ++ [getPair L marketPair]
      | none => [getPair L marketPair]
    { pairsMap := fun k => if k = tokenSymbol then some val else st.pairsMap k
      pairsList := setInsert (setInsert st.pairsList marketPair.BaseAssetSymbol)
        marketPair.QuoteAssetSymbol
      reads := st.reads ++ oracleReads L marketPair.BaseAssetSymbol
                ++ oracleReads L marketPair.QuoteAssetSymbol }

/-- The map `tokensMap` after the loop over `tokenList`: a later entry replaces an earlier
one with the same symbol. -/
def tokensMap (tokenList : List RawToken) : String → Option RawToken :=
  tokenList.foldl (fun m token => fun k => if k = token.Symbol then some token else m k)
    (fun _ => none)

/-- The token `generateTokenList` appends for one key of `pairsList`. -/
def tokenItem (L : Lib) (tm : String → Option RawToken) (pm : String → Option (List Pair))
    (pair : String) : Token :=
  let token := (tm pair).getD RawToken.zero
  { Asset := getAssetIDSymbol L token.Symbol (L.Coins BINANCE).Symbol BINANCE
    Type_ := getTokenType L token.Symbol (L.Coins BINANCE).Symbol L.TypeBEP2
    Address := token.Symbol
    Name := getTokenName L token
    Symbol := token.OriginalSymbol
    Decimals := (L.Coins BINANCE).Decimals
    LogoURI := getLogoURI L token.Symbol (L.Coins BINANCE).Handle (L.Coins BINANCE).Symbol
    Pairs := pm token.Symbol }

/-- What `generateTokenList` returns, and the asset-info paths it read. -/
structure Generated where
  /-- The returned token slice. -/
  tokens : Slice Token
  /-- The returned error; `none` is nil. -/
  err : Option String
  /-- The asset-info paths read by the oracle, in order. -/
  reads : List String

/-- The state of the loop over `marketPairs` after the last pair. -/
def aggregate (L : Lib) (W : World) (marketPairs : List MarketPair) : Aggregate :=
  marketPairs.foldl (aggregateStep L W) ⟨fun _ => none, [], []⟩

/-- The function `generateTokenList`; `ord` is the order in which `range pairsList` runs. -/
def generateTokenList (L : Lib) (W : World) (ord : MapOrder) (marketPairs : List MarketPair)
    (tokenList : List RawToken) : Generated :=
  if marketPairs.length < 5 then
    ⟨none, some ("no markets info is returned from Binance DEX: " ++ toString marketPairs.length),
      []⟩
  else if tokenList.length < 5 then
    ⟨none, some ("no tokens info is returned from Binance DEX: " ++ toString tokenList.length),
      []⟩
  else
    let agg := aggregate L W marketPairs
    let tokenItems := (ord.enum agg.pairsList).map (tokenItem L (tokensMap tokenList) agg.pairsMap)
    ⟨some tokenItems, none, agg.reads⟩

/-- What `createTokenListJSON` does: the documents handed to `fileLib.CreateJSONFile` with
their paths, in order, and the returned error (`none` is nil). -/
structure Written where
  /-- The calls of `fileLib.CreateJSONFile`. -/
  writes : List (String × Model)
  /-- The returned error. -/
  err : Option String
  deriving DecidableEq

/-- The function `createTokenListJSON`.  `fileLib.PrepareJSONData` encodes a struct of
strings, integers and slices of such, on which `encoding/json` does not fail; the encoded bytes
are represented by the document they encode. -/
def createTokenListJSON (L : Lib) (W : World) (chain : Coin) (tokens : Slice Token) : Written :=
  let tokenListPath := L.GetTokenListPath chain.Handle
  match W.readTokenList tokenListPath with
  | none => ⟨[], none⟩
  | some oldTokenList =>
    if oldTokenList.Tokens = tokens then ⟨[], none⟩
    else if Slice.len tokens = 0 then ⟨[], none⟩
    else
      let data : Model :=
        { Name := "Trust Wallet: " ++ (L.Coins chain.ID).Name
          LogoURI := L.Logo
          Timestamp := W.now
          Tokens := tokens
          Version := ⟨addInt oldTokenList.Version.Major 1⟩ }
      ⟨[(tokenListPath, data)], W.createJSONFile tokenListPath data⟩

/-- What a later read of the token list yields: the document of the last write of the run,
and what was there before when the run wrote nothing. -/
def readBack (before : Option Model) (r : Written) : Option Model :=
  match r.writes.getLast? with
  | some w => some w.2
  | none => before

/-! ## Notions used to state the properties -/

/-- A raw pair is eligible when both its base and its quote pass `isTokenExistOrActive`. -/
def eligible (L : Lib) (W : World) (marketPair : MarketPair) : Bool :=
  isTokenExistOrActive L W marketPair.BaseAssetSymbol &&
    isTokenExistOrActive L W marketPair.QuoteAssetSymbol

/-- The eligible raw pairs whose quote is `S`, in raw-list order. -/
def quoting (L : Lib) (W : World) (marketPairs : List MarketPair) (S : String) :
    List MarketPair :=
  marketPairs.filter (fun mp => eligible L W mp && decide (mp.QuoteAssetSymbol = S))

/-- The symbol `S` is the base or the quote of an eligible raw pair. -/
def Collected (L : Lib) (W : World) (marketPairs : List MarketPair) (S : String) : Prop :=
  ∃ mp ∈ marketPairs, eligible L W mp = true ∧
    (mp.BaseAssetSymbol = S ∨ mp.QuoteAssetSymbol = S)

/-- The raw token list has an entry for the symbol `S`. -/
def HasMetadata (tokenList : List RawToken) (S : String) : Prop :=
  ∃ t ∈ tokenList, t.Symbol = S

/-- Every base and quote symbol of an eligible raw pair has a metadata entry. -/
def MetadataComplete (L : Lib) (W : World) (marketPairs : List MarketPair)
    (tokenList : List RawToken) : Prop :=
  ∀ mp ∈ marketPairs, eligible L W mp = true →
    HasMetadata tokenList mp.BaseAssetSymbol ∧ HasMetadata tokenList mp.QuoteAssetSymbol

/-- A slice as `pairsMap` holds it: nil for no pairs. -/
def sliceOf {α : Type} : List α → Slice α
  | [] => none
  | a :: l => some (a :: l)

/-- The map order that visits keys in the order of their first insertion. -/
def insertionOrder : MapOrder := ⟨id, fun _ => List.Perm.refl _⟩

/-- The map order that visits keys against the order of their first insertion. -/
def reverseOrder : MapOrder := ⟨List.reverse, List.reverse_perm⟩

instance (L : Lib) (W : World) (marketPairs : List MarketPair) (S : String) :
    Decidable (Collected L W marketPairs S) := by
  unfold Collected
  infer_instance

instance (tokenList : List RawToken) (S : String) : Decidable (HasMetadata tokenList S) := by
  unfold HasMetadata
  infer_instance

instance (L : Lib) (W : World) (marketPairs : List MarketPair) (tokenList : List RawToken) :
    Decidable (MetadataComplete L W marketPairs tokenList) := by
  unfold MetadataComplete
  infer_instance

/-! ## The asset bootstrap and the whole run -/

/-- The fields of `explorer.Bep2Asset` the processor reads. -/
structure Bep2Asset where
  Asset : String
  Name : String
  MappedAsset : String
  AssetImg : String
  Decimals : Int
  deriving DecidableEq

/-- The asset-info record `createInfoJSON` writes: the fields of `info.AssetModel` it sets. -/
structure AssetInfo where
  Name : String
  /-- The field `Type`. -/
  Type_ : String
  Symbol : String
  Decimals : Int
  Website : String
  Description : String
  Explorer : String
  Status : String
  ID : String
  deriving DecidableEq

/-- The library, with the functions only the asset bootstrap and the entry point use. -/
structure BootLib extends Lib where
  /-- The function `types.GetChainFromAssetType`. -/
  GetChainFromAssetType : String → Except String Coin
  /-- The function `path.GetAssetLogoPath`. -/
  GetAssetLogoPath : String → String → String
  /-- The function `coin.GetCoinExploreURL`. -/
  GetCoinExploreURL : Coin → String → String → Except String String

/-- The file system as the whole run observes and changes it.  A library call that returns an
error leaves the files as they were; logo files, asset-info files and the token list are
different files. -/
structure Disk extends World where
  /-- The function `fileLib.Exists`. -/
  fileExists : String → Bool
  /-- The error `fileLib.CreateDirPath` returns for a path; `none` is success. -/
  createDirPath : String → Option String
  /-- The error `image.CreatePNGFromURL` returns for a URL and a path; `none` is success. -/
  createPNGFromURL : String → String → Option String
  /-- The error `fileLib.CreateJSONFile` returns for a path and an asset-info record. -/
  createInfoFile : String → AssetInfo → Option String

/-- A call of a library function that writes to the file system. -/
inductive FileWrite where
  /-- A call of `fileLib.CreateDirPath`. -/
  | dir (path : String)
  /-- A call of `image.CreatePNGFromURL`. -/
  | png (url path : String)
  /-- A call of `fileLib.CreateJSONFile` with an asset-info record. -/
  | info (path : String) (record : AssetInfo)
  /-- A call of `fileLib.CreateJSONFile` with a token list document. -/
  | tokenList (path : String) (doc : Model)
  deriving DecidableEq

/-- The file system once a logo has been stored at a path. -/
def Disk.withLogo (D : Disk) (path : String) : Disk :=
  { D with fileExists := fun p => if p = path then true else D.fileExists p }

/-- The file system once an asset-info record has been stored at a path: the file exists and
reads back with the status of the record. -/
def Disk.withInfo (D : Disk) (path : String) (record : AssetInfo) : Disk :=
  { D with
    fileExists := fun p => if p = path then true else D.fileExists p
    readAssetInfo := fun p => if p = path then some ⟨some record.Status⟩ else D.readAssetInfo p }

/-- The file system once a token list document has been stored at a path. -/
def Disk.withTokenList (D : Disk) (path : String) (doc : Model) : Disk :=
  { D with
    fileExists := fun p => if p = path then true else D.fileExists p
    readTokenList := fun p => if p = path then some doc else D.readTokenList p }

/-- What a part of the run does: the file system it leaves, the calls of writing library
functions in order, and the returned error (`none` is nil). -/
structure Run where
  /-- The file system after the call. -/
  disk : Disk
  /-- The calls of writing library functions. -/
  writes : List FileWrite
  /-- The returned error. -/
  err : Option String

/-- The function `createLogo`. -/
def createLogo (D : Disk) (assetLogoPath : String) (a : Bep2Asset) : Run :=
  match D.createDirPath assetLogoPath with
  | some err => ⟨D, [FileWrite.dir assetLogoPath], some err⟩
  | none =>
    match D.createPNGFromURL a.AssetImg assetLogoPath with
    | some err =>
      ⟨D, [FileWrite.dir assetLogoPath, FileWrite.png a.AssetImg assetLogoPath], some err⟩
    | none =>
      ⟨D.withLogo assetLogoPath,
        [FileWrite.dir assetLogoPath, FileWrite.png a.AssetImg assetLogoPath], none⟩

/-- The function `createInfoJSON`; encoding the record does not fail. -/
def createInfoJSON (B : BootLib) (D : Disk) (chain : Coin) (a : Bep2Asset) : Run :=
  match B.GetCoinExploreURL chain a.Asset "" with
  | Except.error err => ⟨D, [], some err⟩
  | Except.ok explorerURL =>
    let assetInfo : AssetInfo :=
      { Name := a.Name
        Type_ := B.TypeBEP2
        Symbol := a.MappedAsset
        Decimals := a.Decimals
        Website := ""
        Description := "-"
        Explorer := explorerURL
        Status := activeStatus
        ID := a.Asset }
    let assetInfoPath := B.GetAssetInfoPath chain.Handle a.Asset
    match D.createInfoFile assetInfoPath assetInfo with
    | some err => ⟨D, [FileWrite.info assetInfoPath assetInfo], some err⟩
    | none => ⟨D.withInfo assetInfoPath assetInfo, [FileWrite.info assetInfoPath assetInfo], none⟩

/-- The function `fetchMissingAssets`. -/
def fetchMissingAssets (B : BootLib) (chain : Coin) : Disk → List Bep2Asset → Run
  | D, [] => ⟨D, [], none⟩
  | D, a :: assets =>
    if a.AssetImg = "" ∨ a.Decimals = 0 then fetchMissingAssets B chain D assets
    else if D.fileExists (B.GetAssetLogoPath chain.Handle a.Asset) = true then
      fetchMissingAssets B chain D assets
    else
      let logo := createLogo D (B.GetAssetLogoPath chain.Handle a.Asset) a
      match logo.err with
      | some err => ⟨logo.disk, logo.writes, some err⟩
      | none =>
        let info := createInfoJSON B logo.disk chain a
        match info.err with
        | some err => ⟨info.disk, logo.writes ++ info.writes, some err⟩
        | none =>
          let rest := fetchMissingAssets B chain info.disk assets
          ⟨rest.disk, logo.writes ++ info.writes ++ rest.writes, rest.err⟩

/-- The results of the three fetches of a run, each a value or an error. -/
structure Fetched where
  /-- The result of `explorerClient.FetchBep2Assets`, the field `AssetInfoList`. -/
  bep2AssetList : Except String (List Bep2Asset)
  /-- The result of `dexClient.FetchMarketPairs`. -/
  marketPairs : Except String (List MarketPair)
  /-- The result of `dexClient.FetchTokens`. -/
  tokenList : Except String (List RawToken)

/-- The file system after `createTokenListJSON`: the written document is stored when the write
returned no error. -/
def Disk.afterTokenList (D : Disk) (r : Written) : Disk :=
  match r.err with
  | some _ => D
  | none => r.writes.foldl (fun d w => d.withTokenList w.1 w.2) D

/-- The method `UpdateBinanceTokens`; `F` holds what the fetches return and `ord` is the order
in which `generateTokenList` ranges over `pairsList`. -/
def UpdateBinanceTokens (B : BootLib) (D : Disk) (ord : MapOrder) (F : Fetched) : Run :=
  match F.bep2AssetList with
  | Except.error err => ⟨D, [], some err⟩
  | Except.ok bep2AssetList =>
    match F.marketPairs with
    | Except.error err => ⟨D, [], some err⟩
    | Except.ok marketPairs =>
      match F.tokenList with
      | Except.error err => ⟨D, [], some err⟩
      | Except.ok tokenList =>
        match B.GetChainFromAssetType B.TypeBEP2 with
        | Except.error err => ⟨D, [], some err⟩
        | Except.ok chain =>
          let boot := fetchMissingAssets B chain D bep2AssetList
          match boot.err with
          | some err => ⟨boot.disk, boot.writes, some err⟩
          | none =>
            let generated :=
              generateTokenList B.toLib boot.disk.toWorld ord marketPairs tokenList
            match generated.err with
            | some err => ⟨boot.disk, boot.writes, some err⟩
            | none =>
              let tokens := Option.map sortTokens generated.tokens
              let written := createTokenListJSON B.toLib boot.disk.toWorld chain tokens
              ⟨boot.disk.afterTokenList written,
                boot.writes ++ written.writes.map (fun w => FileWrite.tokenList w.1 w.2),
                written.err⟩

/-! ## The persisted document across runs -/

/-- The world of a run that finds `store` in the token list file at `path`. -/
def World.holding (W : World) (path : String) (store : Option Model) : World :=
  { W with readTokenList := fun p => if p = path then store else W.readTokenList p }

/-- The persisted document after a call of `createTokenListJSON`: the written document when
the write returned no error, and the document that was there before otherwise. -/
def persisted (before : Option Model) (r : Written) : Option Model :=
  match r.err with
  | some _ => before
  | none => readBack before r

/-- One run of `createTokenListJSON` against the persisted document: the run has its own
clock and write outcome and is given a synthesized token list. -/
def reconcile (L : Lib) (chain : Coin) (store : Option Model) (run : World × Slice Token) :
    Option Model :=
  persisted store
    (createTokenListJSON L (run.1.holding (L.GetTokenListPath chain.Handle) store) chain run.2)

/-- The persisted document after a sequence of runs. -/
def reconcileAll (L : Lib) (chain : Coin) (store : Option Model)
    (runs : List (World × Slice Token)) : Option Model :=
  runs.foldl (reconcile L chain) store

/-- The distinct symbols occurring as base or quote of an eligible raw pair. -/
def collectedSymbols (L : Lib) (W : World) (marketPairs : List MarketPair) : List String :=
  (((marketPairs.filter (eligible L W)).map
    (fun mp => [mp.BaseAssetSymbol, mp.QuoteAssetSymbol])).flatten).dedup

/-- An asset `fetchMissingAssets` passes over on a file system: it has no image URL, or zero
decimals, or its logo exists at the expected path. -/
def Skipped (B : BootLib) (chain : Coin) (D : Disk) (a : Bep2Asset) : Prop :=
  a.AssetImg = "" ∨ a.Decimals = 0 ∨
    D.fileExists (B.GetAssetLogoPath chain.Handle a.Asset) = true

instance (B : BootLib) (chain : Coin) (D : Disk) (a : Bep2Asset) :
    Decidable (Skipped B chain D a) := by
  unfold Skipped
  infer_instance

/-- Whether a call writes a token list document. -/
def FileWrite.isTokenList : FileWrite → Bool
  | FileWrite.tokenList _ _ => true
  | _ => false

/-- The record `createInfoJSON` builds for an asset and its explorer URL. -/
def assetInfoOf (B : BootLib) (a : Bep2Asset) (explorerURL : String) : AssetInfo :=
  ⟨a.Name, B.TypeBEP2, a.MappedAsset, a.Decimals, "", "-", explorerURL, activeStatus, a.Asset⟩

/-- The file system `D'` keeps what `D` holds: every file that exists in `D` exists in `D'`,
and every asset-info record that reads as active in `D` reads as active in `D'`. -/
def Disk.Keeps (D D' : Disk) : Prop :=
  (∀ p, D.fileExists p = true → D'.fileExists p = true) ∧
  (∀ q, D.readAssetInfo q = some ⟨some activeStatus⟩ →
    D'.readAssetInfo q = some ⟨some activeStatus⟩)

/-! ## Sample inputs -/

/-- A sample library: the Binance entries of go-primitives and the asset repository paths. -/
def exLib : Lib where
  Coins := fun _ => ⟨714, "binance", "BNB", "BNB Beacon Chain", 8⟩
  BuildID := fun c t => if t = "" then "c" ++ toString c else "c" ++ toString c ++ "_t" ++ t
  ToSatoshi := fun s => if s = "1" then 100000000 else if s = "0.001" then 100000 else 0
  GetAssetInfoPath := fun chain asset => "blockchains/" ++ chain ++ "/assets/" ++ asset ++ "/info.json"
  GetTokenListPath := fun chain => "blockchains/" ++ chain ++ "/tokenlist.json"
  GetChainLogoURL := fun app chain => app ++ "/blockchains/" ++ chain ++ "/info/logo.png"
  GetAssetLogoURL := fun app chain asset =>
    app ++ "/blockchains/" ++ chain ++ "/assets/" ++ asset ++ "/logo.png"
  AssetsApp := "https://assets.example"
  Logo := "https://example/logo.png"
  TypeCoin := "coin"
  TypeBEP2 := "BEP2"

/-- A sample token with a given address and pairs. -/
def exToken (address : String) (pairs : Slice Pair) : Token :=
  ⟨"c714_t" ++ address, "BEP2", address, address, address, 8, "", pairs⟩

/-- A sample pair with a given base. -/
def exPair (base : String) : Pair := ⟨base, "100000", "1"⟩

/-- Tokens with pair counts 3, 1, 2 and addresses b, a, c. -/
def exUnsorted : List Token :=
  [exToken "b" (some [exPair "z", exPair "x", exPair "y"]), exToken "a" (some [exPair "x"]),
    exToken "c" (some [exPair "y", exPair "x"])]

/-- The chain `UpdateBinanceTokens` passes on, the Binance entry of `coin.Coins`. -/
def exChain : Coin := ⟨714, "binance", "BNB", "BNB Beacon Chain", 8⟩

/-- A sample world: the token list file holds `old`, two assets are active, one is
abandoned, and writes succeed. -/
def exWorld (old : Option Model) : World where
  readAssetInfo := fun p =>
    if p = "blockchains/binance/assets/BUSD-BD1/info.json" then some ⟨some "active"⟩
    else if p = "blockchains/binance/assets/ETH-1C9/info.json" then some ⟨some "active"⟩
    else if p = "blockchains/binance/assets/OLD-000/info.json" then some ⟨some "abandoned"⟩
    else none
  readTokenList := fun p => if p = "blockchains/binance/tokenlist.json" then old else none
  now := "2021-06-01T12:00:00.000000"
  createJSONFile := fun _ _ => none

/-- A sample persisted document with a given major version and token list. -/
def exDoc (major : Int) (tokens : Slice Token) : Model :=
  ⟨"Trust Wallet: BNB Beacon Chain", "https://example/logo.png", "2021-05-01T12:00:00.000000",
    tokens, ⟨major⟩⟩

/-- The token list A, B. -/
def exAB : Slice Token := some [exToken "A" none, exToken "B" none]

/-- The token list A, B, C. -/
def exABC : Slice Token := some [exToken "A" none, exToken "B" none, exToken "C" none]

/-- The document written when A, B, C replaces version 4. -/
def exDocABC : Model :=
  ⟨"Trust Wallet: BNB Beacon Chain", "https://example/logo.png", "2021-06-01T12:00:00.000000",
    exABC, ⟨5⟩⟩

/-- Six raw pairs: four are eligible in `exWorld`, one has an abandoned base, one a base
without record. -/
def exPairs : List MarketPair :=
  [⟨"ETH-1C9", "BNB", "0.001", "1"⟩, ⟨"BUSD-BD1", "BNB", "1", "0.001"⟩,
    ⟨"ETH-1C9", "BUSD-BD1", "0.001", "0.001"⟩, ⟨"OLD-000", "BNB", "1", "1"⟩,
    ⟨"XYZ-111", "BUSD-BD1", "1", "1"⟩, ⟨"BNB", "BUSD-BD1", "1", "1"⟩]

/-- Five raw tokens, with an entry for every symbol of `exPairs`. -/
def exRawTokens : List RawToken :=
  [⟨"Binance Chain Native Token", "BNB", "BNB"⟩, ⟨"BUSD", "BUSD", "BUSD-BD1"⟩,
    ⟨"Ethereum", "ETH", "ETH-1C9"⟩, ⟨"Old Coin", "OLD", "OLD-000"⟩,
    ⟨"Xyz", "XYZ", "XYZ-111"⟩]

/-- Five raw tokens without an entry for `ETH-1C9`. -/
def exRawTokensNoETH : List RawToken :=
  [⟨"Binance Chain Native Token", "BNB", "BNB"⟩, ⟨"BUSD", "BUSD", "BUSD-BD1"⟩,
    ⟨"Abc", "ABC", "ABC-222"⟩, ⟨"Old Coin", "OLD", "OLD-000"⟩, ⟨"Xyz", "XYZ", "XYZ-111"⟩]

/-- A world in which the asset with the empty symbol has an active record. -/
def exWorldBlank : World where
  readAssetInfo := fun p =>
    if p = "blockchains/binance/assets//info.json" then some ⟨some "active"⟩ else none
  readTokenList := fun _ => none
  now := "2021-06-01T12:00:00.000000"
  createJSONFile := fun _ => fun _ => none

/-- Five raw pairs of which only the first, with an empty base symbol, is eligible in
`exWorldBlank`. -/
def exPairsBlank : List MarketPair :=
  [⟨"", "BNB", "1", "1"⟩, ⟨"OLD-000", "BNB", "1", "1"⟩, ⟨"OLD-000", "BNB", "1", "1"⟩,
    ⟨"OLD-000", "BNB", "1", "1"⟩, ⟨"OLD-000", "BNB", "1", "1"⟩]

/-- Five raw tokens, one with the empty symbol, none for `BNB`. -/
def exRawTokensBlank : List RawToken :=
  [⟨"Nameless", "NONE", ""⟩, ⟨"BUSD", "BUSD", "BUSD-BD1"⟩, ⟨"Ethereum", "ETH", "ETH-1C9"⟩,
    ⟨"Old Coin", "OLD", "OLD-000"⟩, ⟨"Xyz", "XYZ", "XYZ-111"⟩]

/-- A sample library for the bootstrap: `exLib` with the asset repository logo path, the
Binance explorer URL and the chain of the `BEP2` asset type. -/
def exBootLib : BootLib where
  toLib := exLib
  GetChainFromAssetType := fun t =>
    if t = "BEP2" then Except.ok exChain else Except.error "chain not found"
  GetAssetLogoPath := fun chain asset =>
    "blockchains/" ++ chain ++ "/assets/" ++ asset ++ "/logo.png"
  GetCoinExploreURL := fun _ token _ => Except.ok ("https://explorer.binance.org/asset/" ++ token)

/-- A sample file system over `exWorld`: the logos of `BUSD-BD1` and `ETH-1C9` exist and
every library call succeeds. -/
def exDisk (old : Option Model) : Disk where
  toWorld := exWorld old
  fileExists := fun p =>
    p = "blockchains/binance/assets/BUSD-BD1/logo.png" ∨
      p = "blockchains/binance/assets/ETH-1C9/logo.png"
  createDirPath := fun _ => none
  createPNGFromURL := fun _ => fun _ => none
  createInfoFile := fun _ => fun _ => none

/-- Four explorer assets: one without local logo, one with a logo, one without image URL,
one with zero decimals. -/
def exAssets : List Bep2Asset :=
  [⟨"NEW-123", "New Coin", "NEW", "https://img.example/new.png", 8⟩,
    ⟨"BUSD-BD1", "BUSD", "BUSD", "https://img.example/busd.png", 8⟩,
    ⟨"NOIMG-1", "No Image", "NOIMG", "", 8⟩,
    ⟨"ZERO-1", "Zero", "ZERO", "https://img.example/zero.png", 0⟩]

/-- The asset-info record written for the first asset of `exAssets`. -/
def exNewInfo : AssetInfo :=
  ⟨"New Coin", "BEP2", "NEW", 8, "", "-", "https://explorer.binance.org/asset/NEW-123",
    "active", "NEW-123"⟩

/-- Five raw pairs of which only the first, quoting the empty symbol, is eligible in
`exWorldBlank`. -/
def exPairsQuoteBlank : List MarketPair :=
  [⟨"BNB", "", "1", "1"⟩, ⟨"OLD-000", "BNB", "1", "1"⟩, ⟨"OLD-000", "BNB", "1", "1"⟩,
    ⟨"OLD-000", "BNB", "1", "1"⟩, ⟨"OLD-000", "BNB", "1", "1"⟩]

/-! # Theorems -/

/-! ## The order on strings -/

theorem lexLess_irrefl : ∀ a : List Nat, lexLess a a = false
  | [] => rfl
  | a :: as => by simp [lexLess, lexLess_irrefl as]

theorem lexLess_asymm : ∀ a b : List Nat, lexLess a b = true → lexLess b a = false
  | [], [] => by simp [lexLess]
  | [], _ :: _ => by simp [lexLess]
  | _ :: _, [] => by simp [lexLess]
  | a :: as, b :: bs => by
    simp only [lexLess]
    intro h
    by_cases h1 : a < b
    · have h2 : ¬ b < a := by omega
      simp [h2, h1]
    · by_cases h2 : b < a
      · simp [h1, h2] at h
      · simp only [h1, h2, if_false] at h ⊢
        exact lexLess_asymm as bs h

theorem lexLess_total : ∀ a b : List Nat, lexLess a b = false → lexLess b a = false → a = b
  | [], [] => by simp
  | [], _ :: _ => by simp [lexLess]
  | _ :: _, [] => by simp [lexLess]
  | a :: as, b :: bs => by
    simp only [lexLess]
    intro h h'
    by_cases h1 : a < b
    · simp [h1] at h
    · by_cases h2 : b < a
      · simp [h2] at h'
      · simp only [h1, h2, if_false] at h h'
        have : a = b := by omega
        rw [this, lexLess_total as bs h h']

theorem lexLess_negTrans : ∀ a b c : List Nat,
    lexLess a b = false → lexLess b c = false → lexLess a c = false
  | [], [], c => by simp
  | [], _ :: _, _ => by simp [lexLess]
  | _ :: _, [], [] => by simp [lexLess]
  | _ :: _, [], _ :: _ => by simp [lexLess]
  | a :: as, b :: bs, [] => by simp [lexLess]
  | a :: as, b :: bs, c :: cs => by
    simp only [lexLess]
    intro h h'
    by_cases h1 : a < b
    · simp [h1] at h
    by_cases h2 : b < c
    · simp [h2] at h'
    simp only [h1, h2, if_false] at h h'
    by_cases h3 : b < a
    · have h4 : ¬ a < c := by omega
      have h5 : c < a := by omega
      simp [h4, h5]
    by_cases h4 : c < b
    · have h5 : ¬ a < c := by omega
      have h6 : c < a := by omega
      simp [h5, h6]
    simp only [h3, h4, if_false] at h h'
    have h5 : ¬ a < c := by omega
    have h6 : ¬ c < a := by omega
    simp only [h5, h6, if_false]
    exact lexLess_negTrans as bs cs h h'

theorem codes_injective {s t : String} (h : codes s = codes t) : s = t := by
  unfold codes at h
  have hinj : Function.Injective Char.toNat := by
    intro a b hab
    apply Char.ext
    apply UInt32.ext
    exact hab
  have := List.map_injective_iff.mpr hinj h
  exact String.ext this

theorem strLess_irrefl (s : String) : strLess s s = false := lexLess_irrefl _
theorem strLess_asymm (s t : String) (h : strLess s t = true) : strLess t s = false :=
  lexLess_asymm _ _ h
theorem strLess_total (s t : String) (h : strLess s t = false) (h' : strLess t s = false) :
    s = t := codes_injective (lexLess_total _ _ h h')
theorem strLess_negTrans (s t u : String) (h : strLess s t = false) (h' : strLess t u = false) :
    strLess s u = false := lexLess_negTrans _ _ _ h h'

/-! ## `sort.Slice` orders its argument -/

theorem sink_perm {α : Type} (less : α → α → Bool) (x : α) :
    ∀ l : List α, (sink less x l).Perm (x :: l)
  | [] => List.Perm.refl _
  | y :: ys => by
    unfold sink
    split
    · exact ((sink_perm less x ys).cons y).trans (List.Perm.swap x y ys)
    · exact List.Perm.refl _

theorem foldl_sink_perm {α : Type} (less : α → α → Bool) :
    ∀ (l acc : List α), (l.foldl (fun acc x => sink less x acc) acc).Perm (l ++ acc)
  | [], acc => List.Perm.refl _
  | x :: xs, acc => by
    simp only [List.foldl_cons]
    refine (foldl_sink_perm less xs (sink less x acc)).trans ?_
    refine (List.Perm.append_left xs (sink_perm less x acc)).trans ?_
    simp

theorem sortSlice_perm {α : Type} (less : α → α → Bool) (l : List α) :
    (sortSlice less l).Perm l := by
  unfold sortSlice
  refine (List.reverse_perm _).trans ?_
  simpa using foldl_sink_perm less l []

theorem sink_sorted {α : Type} {less : α → α → Bool} (hw : StrictWeak less) (x : α) :
    ∀ l : List α, l.Pairwise (fun a b => less a b = false) →
      (sink less x l).Pairwise (fun a b => less a b = false)
  | [], _ => by simp [sink]
  | y :: ys, h => by
    unfold sink
    rw [List.pairwise_cons] at h
    split
    · rename_i hxy
      rw [List.pairwise_cons]
      refine ⟨?_, sink_sorted hw x ys h.2⟩
      intro z hz
      have hz' := (sink_perm less x ys).mem_iff.mp hz
      rw [List.mem_cons] at hz'
      rcases hz' with rfl | hz'
      · exact hw.asymm _ _ hxy
      · exact h.1 z hz'
    · rename_i hxy
      have hxy : less x y = false := by simpa using hxy
      rw [List.pairwise_cons]
      refine ⟨?_, List.pairwise_cons.mpr h⟩
      intro z hz
      rw [List.mem_cons] at hz
      rcases hz with rfl | hz
      · exact hxy
      · exact hw.negTrans x y z hxy (h.1 z hz)

theorem foldl_sink_sorted {α : Type} {less : α → α → Bool} (hw : StrictWeak less) :
    ∀ (l acc : List α), acc.Pairwise (fun a b => less a b = false) →
      (l.foldl (fun acc x => sink less x acc) acc).Pairwise (fun a b => less a b = false)
  | [], _, h => h
  | x :: xs, acc, h => by
    simp only [List.foldl_cons]
    exact foldl_sink_sorted hw xs _ (sink_sorted hw x acc h)

theorem sortSlice_sorted {α : Type} {less : α → α → Bool} (hw : StrictWeak less) (l : List α) :
    (sortSlice less l).Pairwise (fun a b => less b a = false) := by
  unfold sortSlice
  rw [List.pairwise_reverse]
  exact foldl_sink_sorted hw l [] List.Pairwise.nil

theorem pairLess_strictWeak : StrictWeak pairLess where
  asymm _ _ h := strLess_asymm _ _ h
  negTrans _ _ _ h h' := strLess_negTrans _ _ _ h h'

theorem tokenLess_strictWeak : StrictWeak tokenLess where
  asymm a b h := by
    unfold tokenLess at h ⊢
    by_cases hl : Slice.len a.Pairs = Slice.len b.Pairs
    · simp only [hl, ne_eq, not_true_eq_false, if_false] at h ⊢
      exact strLess_asymm _ _ h
    · have hl' : ¬ Slice.len b.Pairs = Slice.len a.Pairs := fun e => hl e.symm
      simp only [ne_eq, hl, hl', not_false_eq_true, if_true, decide_eq_true_eq,
        decide_eq_false_iff_not] at h ⊢
      omega
  negTrans a b c h h' := by
    unfold tokenLess at h h' ⊢
    by_cases h1 : Slice.len a.Pairs = Slice.len b.Pairs
    · by_cases h2 : Slice.len b.Pairs = Slice.len c.Pairs
      · have h3 : Slice.len a.Pairs = Slice.len c.Pairs := h1.trans h2
        simp only [h1, h2, h3, ne_eq, not_true_eq_false, if_false] at h h' ⊢
        exact strLess_negTrans _ _ _ h h'
      · have h3 : ¬ Slice.len a.Pairs = Slice.len c.Pairs := fun e => h2 (h1.symm.trans e)
        simp only [ne_eq, h2, h3, not_false_eq_true, if_true, decide_eq_false_iff_not] at h' ⊢
        omega
    · simp only [ne_eq, h1, not_false_eq_true, if_true, decide_eq_false_iff_not] at h
      by_cases h2 : Slice.len b.Pairs = Slice.len c.Pairs
      · have h3 : ¬ Slice.len a.Pairs = Slice.len c.Pairs := fun e => h1 (e.trans h2.symm)
        simp only [ne_eq, h3, not_false_eq_true, if_true, decide_eq_false_iff_not]
        omega
      · simp only [ne_eq, h2, not_false_eq_true, if_true, decide_eq_false_iff_not] at h'
        by_cases h3 : Slice.len a.Pairs = Slice.len c.Pairs
        · omega
        · simp only [ne_eq, h3, not_false_eq_true, if_true, decide_eq_false_iff_not]
          omega

/-! ## `sortTokens` -/

theorem strLess_le_of_not_gt {s t : String} (h : strLess t s = false) :
    s = t ∨ strLess s t = true := by
  by_cases h' : strLess s t = true
  · exact Or.inr h'
  · exact Or.inl (strLess_total s t (by simpa using h') h)

theorem len_map_sortSlice {α : Type} (less : α → α → Bool) (s : Slice α) :
    Slice.len (Option.map (sortSlice less) s) = Slice.len s := by
  cases s with
  | none => rfl
  | some l => exact (sortSlice_perm less l).length_eq

theorem tokenLess_false_iff (a b : Token) (h : tokenLess b a = false) :
    Slice.len a.Pairs > Slice.len b.Pairs ∨
      (Slice.len a.Pairs = Slice.len b.Pairs ∧
        (a.Address = b.Address ∨ strLess a.Address b.Address = true)) := by
  unfold tokenLess at h
  by_cases hl : Slice.len b.Pairs = Slice.len a.Pairs
  · simp only [hl, ne_eq, not_true_eq_false, if_false] at h
    exact Or.inr ⟨hl.symm, strLess_le_of_not_gt h⟩
  · simp only [ne_eq, hl, not_false_eq_true, if_true, decide_eq_false_iff_not] at h
    left
    omega

/-- C3.  After `sortTokens`, a token that precedes another has strictly more pairs, or the
same number of pairs and an address that is lexicographically less than or equal to the
other's; the tokens with pair counts 3, 1, 2 and addresses b, a, c come out as b, c, a. -/
theorem sortTokens_token_order :
    (∀ tokens : List Token, (sortTokens tokens).Pairwise (fun a b =>
      Slice.len a.Pairs > Slice.len b.Pairs ∨
        (Slice.len a.Pairs = Slice.len b.Pairs ∧
          (a.Address = b.Address ∨ strLess a.Address b.Address = true)))) ∧
    (sortTokens exUnsorted).map (fun t => (t.Address, Slice.len t.Pairs))
      = [("b", 3), ("c", 2), ("a", 1)] := by
  refine ⟨fun tokens => ?_, by decide⟩
  unfold sortTokens
  rw [List.pairwise_map]
  refine (sortSlice_sorted tokenLess_strictWeak tokens).imp ?_
  intro a b h
  simp only [len_map_sortSlice]
  exact tokenLess_false_iff a b h

/-- C10.  After `sortTokens`, the pairs of every token of the list are in ascending
lexicographic order of their base asset identifier. -/
theorem sortTokens_pair_order (tokens : List Token) :
    ∀ t ∈ sortTokens tokens, (Slice.toList t.Pairs).Pairwise
      (fun p q => p.Base = q.Base ∨ strLess p.Base q.Base = true) := by
  intro t ht
  unfold sortTokens at ht
  rw [List.mem_map] at ht
  obtain ⟨u, _, rfl⟩ := ht
  cases hp : u.Pairs with
  | none => simp [Slice.toList]
  | some l =>
    simp only [Option.map_some', Slice.toList]
    refine (sortSlice_sorted pairLess_strictWeak l).imp ?_
    intro p q h
    exact strLess_le_of_not_gt h

/-- C10, witness: the token `b` of the sample list, whose pairs z, x, y come out as x, y, z. -/
theorem sortTokens_pair_order_witness :
    exToken "b" (some [exPair "x", exPair "y", exPair "z"]) ∈ sortTokens exUnsorted ∧
    (Slice.toList (exToken "b" (some [exPair "x", exPair "y", exPair "z"])).Pairs).Pairwise
      (fun p q => p.Base = q.Base ∨ strLess p.Base q.Base = true) :=
  ⟨by decide,
    sortTokens_pair_order exUnsorted (exToken "b" (some [exPair "x", exPair "y", exPair "z"]))
      (by decide)⟩

/-! ## `createTokenListJSON` -/

theorem wrapInt_eq_self {z : Int} (h1 : minInt ≤ z) (h2 : z ≤ maxInt) : wrapInt z = z := by
  unfold wrapInt
  unfold minInt at h1
  unfold maxInt at h2
  simp only [intBits] at *
  norm_num at *
  omega

theorem createTokenListJSON_of_unreadable (L : Lib) (W : World) (chain : Coin)
    (tokens : Slice Token)
    (hread : W.readTokenList (L.GetTokenListPath chain.Handle) = none) :
    createTokenListJSON L W chain tokens = ⟨[], none⟩ := by
  simp only [createTokenListJSON, hread]

theorem createTokenListJSON_of_readable (L : Lib) (W : World) (chain : Coin)
    (tokens : Slice Token) (oldTokenList : Model)
    (hread : W.readTokenList (L.GetTokenListPath chain.Handle) = some oldTokenList) :
    createTokenListJSON L W chain tokens =
      if oldTokenList.Tokens = tokens then ⟨[], none⟩
      else if Slice.len tokens = 0 then ⟨[], none⟩
      else
        ⟨[(L.GetTokenListPath chain.Handle,
            ⟨"Trust Wallet: " ++ (L.Coins chain.ID).Name, L.Logo, W.now, tokens,
              ⟨addInt oldTokenList.Version.Major 1⟩⟩)],
          W.createJSONFile (L.GetTokenListPath chain.Handle)
            ⟨"Trust Wallet: " ++ (L.Coins chain.ID).Name, L.Logo, W.now, tokens,
              ⟨addInt oldTokenList.Version.Major 1⟩⟩⟩ := by
  simp only [createTokenListJSON, hread]

/-- C1, amended.  When the previous document is read successfully, its major version is a Go
`int` below the largest one, and the new token list is non-empty and not deeply equal to the
previous token list, exactly one document is written; its major version is the previous one
plus one, its tokens are the new token list in the same order, and the value returned is
that of the write. -/
theorem createTokenListJSON_version_bump (L : Lib) (W : World) (chain : Coin)
    (tokens : Slice Token) (oldTokenList : Model)
    (hread : W.readTokenList (L.GetTokenListPath chain.Handle) = some oldTokenList)
    (hmin : minInt ≤ oldTokenList.Version.Major) (hmax : oldTokenList.Version.Major < maxInt)
    (hlen : Slice.len tokens ≠ 0) (hne : oldTokenList.Tokens ≠ tokens) :
    ∃ doc : Model,
      (createTokenListJSON L W chain tokens).writes = [(L.GetTokenListPath chain.Handle, doc)] ∧
      doc.Version.Major = oldTokenList.Version.Major + 1 ∧
      doc.Tokens = tokens ∧
      (createTokenListJSON L W chain tokens).err
        = W.createJSONFile (L.GetTokenListPath chain.Handle) doc := by
  have hw : addInt oldTokenList.Version.Major 1 = oldTokenList.Version.Major + 1 :=
    wrapInt_eq_self (by omega) (by omega)
  rw [createTokenListJSON_of_readable L W chain tokens oldTokenList hread, if_neg hne,
    if_neg hlen]
  exact ⟨_, rfl, hw, rfl, rfl⟩

/-- C1, witness: previous major 4 with tokens A, B and new tokens A, B, C gives one written
document with major 5 and tokens A, B, C. -/
theorem createTokenListJSON_version_bump_witness :
    (createTokenListJSON exLib (exWorld (some (exDoc 4 exAB))) exChain exABC).writes
        = [("blockchains/binance/tokenlist.json", exDocABC)] ∧
    ∃ doc : Model,
      (createTokenListJSON exLib (exWorld (some (exDoc 4 exAB))) exChain exABC).writes
        = [(exLib.GetTokenListPath exChain.Handle, doc)] ∧
      doc.Version.Major = (exDoc 4 exAB).Version.Major + 1 ∧
      doc.Tokens = exABC ∧
      (createTokenListJSON exLib (exWorld (some (exDoc 4 exAB))) exChain exABC).err
        = (exWorld (some (exDoc 4 exAB))).createJSONFile (exLib.GetTokenListPath exChain.Handle)
            doc :=
  ⟨by decide,
    createTokenListJSON_version_bump exLib (exWorld (some (exDoc 4 exAB))) exChain exABC
      (exDoc 4 exAB) (by decide) (by decide) (by decide) (by decide) (by decide)⟩

/-- C1 as stated fails at the largest Go `int`: the previous document is read successfully,
the new token list is non-empty and differs from the previous one, and the major version of
the written document is the smallest `int`, not the previous major plus one. -/
theorem createTokenListJSON_version_bump_overflow :
    (exWorld (some (exDoc 9223372036854775807 exAB))).readTokenList
        (exLib.GetTokenListPath exChain.Handle) = some (exDoc 9223372036854775807 exAB) ∧
    Slice.len exABC ≠ 0 ∧
    (exDoc 9223372036854775807 exAB).Tokens ≠ exABC ∧
    (createTokenListJSON exLib (exWorld (some (exDoc 9223372036854775807 exAB))) exChain
        exABC).writes.map (fun w => w.2.Version.Major) = [-9223372036854775808] ∧
    (exDoc 9223372036854775807 exAB).Version.Major + 1 = 9223372036854775808 := by
  decide

/-- C8.  Whatever the previous document is, `createTokenListJSON` with an empty token list
performs no write and returns no error. -/
theorem createTokenListJSON_empty_guard (L : Lib) (W : World) (chain : Coin)
    (tokens : Slice Token) (hlen : Slice.len tokens = 0) :
    (createTokenListJSON L W chain tokens).writes = [] ∧
      (createTokenListJSON L W chain tokens).err = none := by
  cases hread : W.readTokenList (L.GetTokenListPath chain.Handle) with
  | none =>
    rw [createTokenListJSON_of_unreadable L W chain tokens hread]
    exact ⟨rfl, rfl⟩
  | some oldTokenList =>
    rw [createTokenListJSON_of_readable L W chain tokens oldTokenList hread]
    by_cases he : oldTokenList.Tokens = tokens
    · rw [if_pos he]
      exact ⟨rfl, rfl⟩
    · rw [if_neg he, if_pos hlen]
      exact ⟨rfl, rfl⟩

/-- C8, witness: an empty list against an unreadable document, against a readable document
without tokens and against a readable document with tokens. -/
theorem createTokenListJSON_empty_guard_witness :
    ((createTokenListJSON exLib (exWorld none) exChain (some [])).writes = [] ∧
      (createTokenListJSON exLib (exWorld none) exChain (some [])).err = none) ∧
    ((createTokenListJSON exLib (exWorld (some (exDoc 4 none))) exChain (some [])).writes = [] ∧
      (createTokenListJSON exLib (exWorld (some (exDoc 4 none))) exChain (some [])).err = none) ∧
    ((createTokenListJSON exLib (exWorld (some (exDoc 4 exAB))) exChain (some [])).writes = [] ∧
      (createTokenListJSON exLib (exWorld (some (exDoc 4 exAB))) exChain (some [])).err = none) :=
  ⟨createTokenListJSON_empty_guard exLib (exWorld none) exChain (some []) (by decide),
    createTokenListJSON_empty_guard exLib (exWorld (some (exDoc 4 none))) exChain (some [])
      (by decide),
    createTokenListJSON_empty_guard exLib (exWorld (some (exDoc 4 exAB))) exChain (some [])
      (by decide)⟩

/-- C9.  When reading the previous document fails, `createTokenListJSON` writes no document
and returns nil, for every new token list. -/
theorem createTokenListJSON_unreadable (L : Lib) (W : World) (chain : Coin)
    (tokens : Slice Token)
    (hread : W.readTokenList (L.GetTokenListPath chain.Handle) = none) :
    (createTokenListJSON L W chain tokens).writes = [] ∧
      (createTokenListJSON L W chain tokens).err = none := by
  rw [createTokenListJSON_of_unreadable L W chain tokens hread]
  exact ⟨rfl, rfl⟩

/-- C9, witness: with no previous file the non-empty list A, B, C is not written. -/
theorem createTokenListJSON_unreadable_witness :
    Slice.len exABC = 3 ∧
    (createTokenListJSON exLib (exWorld none) exChain exABC).writes = [] ∧
      (createTokenListJSON exLib (exWorld none) exChain exABC).err = none :=
  ⟨by decide, createTokenListJSON_unreadable exLib (exWorld none) exChain exABC (by decide)⟩

/-- C7.  Let the previous document `D` be readable and let `D2` be what is read after
reconciling `T` against `D`: `D` itself when nothing was written, and otherwise a document
with the tokens and version that were written.  Then reconciling `T` again performs no write,
returns no error and leaves the persisted document, hence its major version, as it was; and
when `T` is deeply equal to the tokens of `D` the first run already performs no write. -/
theorem createTokenListJSON_idempotent (L : Lib) (W W2 : World) (chain : Coin)
    (T : Slice Token) (D D2 : Model)
    (hread : W.readTokenList (L.GetTokenListPath chain.Handle) = some D)
    (hread2 : W2.readTokenList (L.GetTokenListPath chain.Handle) = some D2)
    (hkeep : (createTokenListJSON L W chain T).writes = [] → D2 = D)
    (hback : ∀ w ∈ (createTokenListJSON L W chain T).writes,
      D2.Tokens = w.2.Tokens ∧ D2.Version = w.2.Version) :
    (createTokenListJSON L W2 chain T).writes = [] ∧
    (createTokenListJSON L W2 chain T).err = none ∧
    readBack (some D2) (createTokenListJSON L W2 chain T) = some D2 ∧
    (D.Tokens = T → (createTokenListJSON L W chain T).writes = []) := by
  have key : createTokenListJSON L W2 chain T = ⟨[], none⟩ := by
    rw [createTokenListJSON_of_readable L W chain T D hread] at hkeep hback
    rw [createTokenListJSON_of_readable L W2 chain T D2 hread2]
    by_cases he : D.Tokens = T
    · rw [if_pos he] at hkeep
      rw [hkeep rfl, if_pos he]
    · by_cases hl : Slice.len T = 0
      · rw [if_neg he, if_pos hl] at hkeep
        rw [hkeep rfl, if_neg he, if_pos hl]
      · rw [if_neg he, if_neg hl] at hback
        have h2 : D2.Tokens = T := (hback _ (List.mem_singleton_self _)).1
        rw [if_pos h2]
  refine ⟨by rw [key], by rw [key], by rw [key]; rfl, ?_⟩
  intro he
  rw [createTokenListJSON_of_readable L W chain T D hread, if_pos he]

/-- C7, witness: reconciling A, B, C against version 4 with tokens A, B writes version 5;
reconciling A, B, C against what was written writes nothing. -/
theorem createTokenListJSON_idempotent_witness :
    (createTokenListJSON exLib (exWorld (some (exDoc 4 exAB))) exChain exABC).writes
        = [("blockchains/binance/tokenlist.json", exDocABC)] ∧
    ((createTokenListJSON exLib (exWorld (some exDocABC)) exChain exABC).writes = [] ∧
    (createTokenListJSON exLib (exWorld (some exDocABC)) exChain exABC).err = none ∧
    readBack (some exDocABC) (createTokenListJSON exLib (exWorld (some exDocABC)) exChain exABC)
      = some exDocABC ∧
    ((exDoc 4 exAB).Tokens = exABC →
      (createTokenListJSON exLib (exWorld (some (exDoc 4 exAB))) exChain exABC).writes = [])) :=
  ⟨by decide,
    createTokenListJSON_idempotent exLib (exWorld (some (exDoc 4 exAB)))
      (exWorld (some exDocABC)) exChain exABC (exDoc 4 exAB) exDocABC (by decide) (by decide)
      (by decide) (by decide)⟩

/-! ## The loops of `generateTokenList` -/

theorem toList_sliceOf {α : Type} (l : List α) : Slice.toList (sliceOf l) = l := by
  cases l <;> rfl

theorem sliceOf_append_singleton {α : Type} (l : List α) (a : α) :
    sliceOf (l ++ [a]) = some (l ++ [a]) := by
  cases l <;> rfl

theorem mem_setInsert (ks : List String) (k x : String) :
    x ∈ setInsert ks k ↔ x ∈ ks ∨ x = k := by
  unfold setInsert
  split
  · rename_i h
    constructor
    · exact Or.inl
    · rintro (h' | rfl)
      · exact h'
      · exact h
  · simp

theorem nodup_setInsert (ks : List String) (k : String) (h : ks.Nodup) :
    (setInsert ks k).Nodup := by
  unfold setInsert
  split
  · exact h
  · rename_i hk
    rw [List.nodup_append]
    refine ⟨h, List.nodup_singleton k, ?_⟩
    intro a ha hb
    rw [List.mem_singleton] at hb
    exact hk (hb ▸ ha)

theorem aggregate_snoc (L : Lib) (W : World) (l : List MarketPair) (mp : MarketPair) :
    aggregate L W (l ++ [mp]) = aggregateStep L W (aggregate L W l) mp := by
  simp [aggregate, List.foldl_append]

theorem aggregateStep_of_not_eligible (L : Lib) (W : World) (st : Aggregate) (mp : MarketPair)
    (h : eligible L W mp = false) :
    (aggregateStep L W st mp).pairsMap = st.pairsMap ∧
      (aggregateStep L W st mp).pairsList = st.pairsList := by
  unfold aggregateStep
  unfold eligible at h
  by_cases hb : isTokenExistOrActive L W mp.BaseAssetSymbol = false
  · rw [if_pos hb]
    exact ⟨rfl, rfl⟩
  · rw [if_neg hb]
    have hq : isTokenExistOrActive L W mp.QuoteAssetSymbol = false := by
      simp only [Bool.not_eq_false] at hb
      simpa [hb] using h
    rw [if_pos hq]
    exact ⟨rfl, rfl⟩

theorem aggregateStep_of_eligible (L : Lib) (W : World) (st : Aggregate) (mp : MarketPair)
    (h : eligible L W mp = true) :
    (aggregateStep L W st mp).pairsMap =
        (fun k => if k = mp.QuoteAssetSymbol then
          some (match st.pairsMap mp.QuoteAssetSymbol with
            | some val => val ++ [getPair L mp]
            | none => [getPair L mp])
          else st.pairsMap k) ∧
      (aggregateStep L W st mp).pairsList =
        setInsert (setInsert st.pairsList mp.BaseAssetSymbol) mp.QuoteAssetSymbol := by
  unfold aggregateStep
  unfold eligible at h
  rw [Bool.and_eq_true] at h
  have hb : ¬ isTokenExistOrActive L W mp.BaseAssetSymbol = false := by simp [h.1]
  have hq : ¬ isTokenExistOrActive L W mp.QuoteAssetSymbol = false := by simp [h.2]
  rw [if_neg hb, if_neg hq]
  exact ⟨rfl, rfl⟩

theorem quoting_snoc (L : Lib) (W : World) (l : List MarketPair) (mp : MarketPair)
    (S : String) :
    quoting L W (l ++ [mp]) S =
      quoting L W l S ++
        (if eligible L W mp = true ∧ mp.QuoteAssetSymbol = S then [mp] else []) := by
  unfold quoting
  rw [List.filter_append]
  congr 1
  by_cases h : eligible L W mp = true ∧ mp.QuoteAssetSymbol = S
  · rw [if_pos h]
    simp [List.filter, h.1, h.2]
  · rw [if_neg h]
    have : (eligible L W mp && decide (mp.QuoteAssetSymbol = S)) = false := by
      rw [Bool.and_eq_false_iff]
      by_cases he : eligible L W mp = true
      · right
        simpa using fun hs => h ⟨he, hs⟩
      · left
        simpa using he
    simp [List.filter, this]

/-- The map `pairsMap` after the loop: for each symbol the pairs of the eligible raw pairs that
quote it, in raw-list order, and no key for a symbol no eligible pair quotes. -/
theorem aggregate_pairsMap (L : Lib) (W : World) (l : List MarketPair) (S : String) :
    (aggregate L W l).pairsMap S = sliceOf ((quoting L W l S).map (getPair L)) := by
  induction l using List.reverseRecOn with
  | nil => rfl
  | append_singleton l mp ih =>
    rw [aggregate_snoc, quoting_snoc]
    by_cases he : eligible L W mp = true
    · rw [(aggregateStep_of_eligible L W _ mp he).1]
      by_cases hs : mp.QuoteAssetSymbol = S
      · subst hs
        simp only [if_true, he, and_self, List.map_append, List.map_cons, List.map_nil]
        rw [sliceOf_append_singleton, ih]
        cases (quoting L W l mp.QuoteAssetSymbol).map (getPair L) <;> rfl
      · have hs' : ¬ S = mp.QuoteAssetSymbol := fun e => hs e.symm
        simp only [hs, hs', and_false, if_false, List.append_nil]
        exact ih
    · have he' : eligible L W mp = false := by simpa using he
      rw [(aggregateStep_of_not_eligible L W _ mp he').1,
        if_neg (fun h : eligible L W mp = true ∧ mp.QuoteAssetSymbol = S => he h.1),
        List.append_nil]
      exact ih

/-- The keys of `pairsList` after the loop are exactly the base and quote symbols of the
eligible raw pairs. -/
theorem mem_aggregate_pairsList (L : Lib) (W : World) (l : List MarketPair) (S : String) :
    S ∈ (aggregate L W l).pairsList ↔ Collected L W l S := by
  unfold Collected
  induction l using List.reverseRecOn with
  | nil => simp [aggregate]
  | append_singleton l mp ih =>
    rw [aggregate_snoc]
    by_cases he : eligible L W mp = true
    · rw [(aggregateStep_of_eligible L W _ mp he).2, mem_setInsert, mem_setInsert, ih]
      constructor
      · rintro ((⟨m, hm, h1, h2⟩ | rfl) | rfl)
        · exact ⟨m, List.mem_append_left _ hm, h1, h2⟩
        · exact ⟨mp, by simp, he, Or.inl rfl⟩
        · exact ⟨mp, by simp, he, Or.inr rfl⟩
      · rintro ⟨m, hm, h1, h2⟩
        rw [List.mem_append, List.mem_singleton] at hm
        rcases hm with hm | rfl
        · exact Or.inl (Or.inl ⟨m, hm, h1, h2⟩)
        · rcases h2 with h2 | h2
          · exact Or.inl (Or.inr h2.symm)
          · exact Or.inr h2.symm
    · have he' : eligible L W mp = false := by simpa using he
      rw [(aggregateStep_of_not_eligible L W _ mp he').2, ih]
      constructor
      · rintro ⟨m, hm, h1, h2⟩
        exact ⟨m, List.mem_append_left _ hm, h1, h2⟩
      · rintro ⟨m, hm, h1, h2⟩
        rw [List.mem_append, List.mem_singleton] at hm
        rcases hm with hm | rfl
        · exact ⟨m, hm, h1, h2⟩
        · exact absurd h1 he

theorem nodup_aggregate_pairsList (L : Lib) (W : World) (l : List MarketPair) :
    (aggregate L W l).pairsList.Nodup := by
  induction l using List.reverseRecOn with
  | nil => simp [aggregate]
  | append_singleton l mp ih =>
    rw [aggregate_snoc]
    by_cases he : eligible L W mp = true
    · rw [(aggregateStep_of_eligible L W _ mp he).2]
      exact nodup_setInsert _ _ (nodup_setInsert _ _ ih)
    · have he' : eligible L W mp = false := by simpa using he
      rw [(aggregateStep_of_not_eligible L W _ mp he').2]
      exact ih

theorem tokensMap_snoc (l : List RawToken) (t : RawToken) (k : String) :
    tokensMap (l ++ [t]) k = if k = t.Symbol then some t else tokensMap l k := by
  simp [tokensMap, List.foldl_append]

theorem tokensMap_some (l : List RawToken) (k : String) (t : RawToken)
    (h : tokensMap l k = some t) : t.Symbol = k ∧ t ∈ l := by
  induction l using List.reverseRecOn with
  | nil => simp [tokensMap] at h
  | append_singleton l u ih =>
    rw [tokensMap_snoc] at h
    by_cases hk : k = u.Symbol
    · rw [if_pos hk] at h
      cases h
      exact ⟨hk.symm, by simp⟩
    · rw [if_neg hk] at h
      exact ⟨(ih h).1, List.mem_append_left _ (ih h).2⟩

theorem tokensMap_of_hasMetadata (l : List RawToken) (k : String) (h : HasMetadata l k) :
    ∃ t, tokensMap l k = some t ∧ t.Symbol = k := by
  unfold HasMetadata at h
  induction l using List.reverseRecOn with
  | nil => simp at h
  | append_singleton l u ih =>
    by_cases hk : k = u.Symbol
    · exact ⟨u, by rw [tokensMap_snoc, if_pos hk], hk.symm⟩
    · obtain ⟨t, ht, hs⟩ := h
      rw [List.mem_append, List.mem_singleton] at ht
      rcases ht with ht | rfl
      · obtain ⟨v, hv, hvs⟩ := ih ⟨t, ht, hs⟩
        exact ⟨v, by rw [tokensMap_snoc, if_neg hk]; exact hv, hvs⟩
      · exact absurd hs.symm hk

theorem tokensMap_none (l : List RawToken) (k : String) (h : ¬ HasMetadata l k) :
    tokensMap l k = none := by
  cases hm : tokensMap l k with
  | none => rfl
  | some t => exact absurd ⟨t, (tokensMap_some l k t hm).2, (tokensMap_some l k t hm).1⟩ h

theorem tokenItem_of_hasMetadata (L : Lib) (l : List RawToken)
    (pm : String → Option (List Pair)) (k : String) (h : HasMetadata l k) :
    (tokenItem L (tokensMap l) pm k).Address = k ∧ (tokenItem L (tokensMap l) pm k).Pairs = pm k := by
  obtain ⟨t, ht, hs⟩ := tokensMap_of_hasMetadata l k h
  simp only [tokenItem, ht, Option.getD_some, hs, and_self]

theorem tokenItem_of_no_metadata (L : Lib) (l : List RawToken)
    (pm : String → Option (List Pair)) (k : String) (h : ¬ HasMetadata l k) :
    tokenItem L (tokensMap l) pm k = tokenItem L (fun _ => none) pm "" := by
  simp only [tokenItem, tokensMap_none l k h, Option.getD_none]

theorem generateTokenList_of_few_pairs (L : Lib) (W : World) (ord : MapOrder)
    (marketPairs : List MarketPair) (tokenList : List RawToken)
    (h : marketPairs.length < 5) :
    generateTokenList L W ord marketPairs tokenList =
      ⟨none, some ("no markets info is returned from Binance DEX: "
        ++ toString marketPairs.length), []⟩ := by
  unfold generateTokenList
  rw [if_pos h]

theorem generateTokenList_of_few_tokens (L : Lib) (W : World) (ord : MapOrder)
    (marketPairs : List MarketPair) (tokenList : List RawToken)
    (h : 5 ≤ marketPairs.length) (h' : tokenList.length < 5) :
    generateTokenList L W ord marketPairs tokenList =
      ⟨none, some ("no tokens info is returned from Binance DEX: "
        ++ toString tokenList.length), []⟩ := by
  unfold generateTokenList
  rw [if_neg (by omega), if_pos h']

theorem generateTokenList_of_floor (L : Lib) (W : World) (ord : MapOrder)
    (marketPairs : List MarketPair) (tokenList : List RawToken)
    (hmp : 5 ≤ marketPairs.length) (htl : 5 ≤ tokenList.length) :
    generateTokenList L W ord marketPairs tokenList =
      ⟨some ((ord.enum (aggregate L W marketPairs).pairsList).map
          (tokenItem L (tokensMap tokenList) (aggregate L W marketPairs).pairsMap)),
        none, (aggregate L W marketPairs).reads⟩ := by
  unfold generateTokenList
  rw [if_neg (by omega), if_neg (by omega)]

/-! ## `generateTokenList` -/

theorem filter_eq_singleton_of_nodup (S : String) :
    ∀ l : List String, l.Nodup → S ∈ l → l.filter (fun k => decide (k = S)) = [S]
  | [], _, h => by simp at h
  | a :: l, hn, hm => by
    rw [List.nodup_cons] at hn
    by_cases ha : a = S
    · subst ha
      rw [List.filter_cons_of_pos (by simp)]
      congr 1
      rw [List.filter_eq_nil_iff]
      intro b hb
      simp only [decide_eq_true_eq]
      rintro rfl
      exact hn.1 hb
    · rw [List.filter_cons_of_neg (by simpa using ha)]
      rw [List.mem_cons] at hm
      rcases hm with rfl | hm
      · exact absurd rfl ha
      · exact filter_eq_singleton_of_nodup S l hn.2 hm

theorem mem_enum_pairsList (L : Lib) (W : World) (ord : MapOrder) (l : List MarketPair)
    (k : String) :
    k ∈ ord.enum (aggregate L W l).pairsList ↔ Collected L W l k := by
  rw [(ord.perm _).mem_iff, mem_aggregate_pairsList]

/-- C2.  On an input passing the size floor in which every base and quote symbol of an
eligible raw pair has a metadata entry, for every symbol `S` that is the base or the quote of
an eligible raw pair the output holds exactly one token with address `S`, and the pairs of
that token are `getPair` of the eligible raw pairs quoting `S`, in raw-list order. -/
theorem generateTokenList_dedup (L : Lib) (W : World) (ord : MapOrder)
    (marketPairs : List MarketPair) (tokenList : List RawToken)
    (hmp : 5 ≤ marketPairs.length) (htl : 5 ≤ tokenList.length)
    (hmeta : MetadataComplete L W marketPairs tokenList)
    (S : String) (hS : Collected L W marketPairs S) :
    ∃ (items : List Token) (t : Token),
      (generateTokenList L W ord marketPairs tokenList).tokens = some items ∧
      (generateTokenList L W ord marketPairs tokenList).err = none ∧
      items.filter (fun u => decide (u.Address = S)) = [t] ∧
      Slice.toList t.Pairs = (quoting L W marketPairs S).map (getPair L) ∧
      Slice.len t.Pairs = (quoting L W marketPairs S).length := by
  rw [generateTokenList_of_floor L W ord marketPairs tokenList hmp htl]
  have hall : ∀ k ∈ ord.enum (aggregate L W marketPairs).pairsList, HasMetadata tokenList k := by
    intro k hk
    obtain ⟨mp, hmem, he, hk'⟩ := (mem_enum_pairsList L W ord marketPairs k).mp hk
    rcases hk' with rfl | rfl
    · exact (hmeta mp hmem he).1
    · exact (hmeta mp hmem he).2
  have hSm : HasMetadata tokenList S := by
    obtain ⟨mp, hmem, he, hk'⟩ := hS
    rcases hk' with rfl | rfl
    · exact (hmeta mp hmem he).1
    · exact (hmeta mp hmem he).2
  have hpairs := (tokenItem_of_hasMetadata L tokenList (aggregate L W marketPairs).pairsMap S
    hSm).2
  refine ⟨_, tokenItem L (tokensMap tokenList) (aggregate L W marketPairs).pairsMap S, rfl, rfl,
    ?_, ?_, ?_⟩
  · rw [List.filter_map]
    have hcongr : (ord.enum (aggregate L W marketPairs).pairsList).filter
          ((fun u : Token => decide (u.Address = S)) ∘
            tokenItem L (tokensMap tokenList) (aggregate L W marketPairs).pairsMap)
        = (ord.enum (aggregate L W marketPairs).pairsList).filter (fun k => decide (k = S)) := by
      apply List.filter_congr
      intro k hk
      simp only [Function.comp_apply, (tokenItem_of_hasMetadata L tokenList _ k (hall k hk)).1]
    rw [hcongr, filter_eq_singleton_of_nodup S _
      ((ord.perm _).nodup_iff.mpr (nodup_aggregate_pairsList L W marketPairs))
      ((mem_enum_pairsList L W ord marketPairs S).mpr hS)]
    rfl
  · rw [hpairs, aggregate_pairsMap, toList_sliceOf]
  · unfold Slice.len
    rw [hpairs, aggregate_pairsMap, toList_sliceOf, List.length_map]

/-- C2, witness: in the sample run the symbol `BNB`, quoted by two eligible pairs, yields one
token with those two pairs, and `ETH-1C9`, only ever a base, yields one token without
pairs. -/
theorem generateTokenList_dedup_witness :
    (∃ (items : List Token) (t : Token),
      (generateTokenList exLib (exWorld none) reverseOrder exPairs exRawTokens).tokens
        = some items ∧
      (generateTokenList exLib (exWorld none) reverseOrder exPairs exRawTokens).err = none ∧
      items.filter (fun u => decide (u.Address = "BNB")) = [t] ∧
      Slice.toList t.Pairs = (quoting exLib (exWorld none) exPairs "BNB").map (getPair exLib) ∧
      Slice.len t.Pairs = (quoting exLib (exWorld none) exPairs "BNB").length) ∧
    (quoting exLib (exWorld none) exPairs "BNB").length = 2 ∧
    (∃ (items : List Token) (t : Token),
      (generateTokenList exLib (exWorld none) reverseOrder exPairs exRawTokens).tokens
        = some items ∧
      (generateTokenList exLib (exWorld none) reverseOrder exPairs exRawTokens).err = none ∧
      items.filter (fun u => decide (u.Address = "ETH-1C9")) = [t] ∧
      Slice.toList t.Pairs
        = (quoting exLib (exWorld none) exPairs "ETH-1C9").map (getPair exLib) ∧
      Slice.len t.Pairs = (quoting exLib (exWorld none) exPairs "ETH-1C9").length) ∧
    (quoting exLib (exWorld none) exPairs "ETH-1C9").length = 0 :=
  ⟨generateTokenList_dedup exLib (exWorld none) reverseOrder exPairs exRawTokens (by decide)
      (by decide) (by decide) "BNB" (by decide),
    by decide,
    generateTokenList_dedup exLib (exWorld none) reverseOrder exPairs exRawTokens (by decide)
      (by decide) (by decide) "ETH-1C9" (by decide),
    by decide⟩

theorem tokenItem_pairs_eligible (L : Lib) (W : World) (marketPairs : List MarketPair)
    (tm : String → Option RawToken) (k : String) :
    ∀ p ∈ Slice.toList (tokenItem L tm (aggregate L W marketPairs).pairsMap k).Pairs,
      ∃ mp ∈ marketPairs, eligible L W mp = true ∧ p = getPair L mp := by
  intro p hp
  simp only [tokenItem, aggregate_pairsMap, toList_sliceOf, List.mem_map] at hp
  obtain ⟨mp, hmp, rfl⟩ := hp
  unfold quoting at hmp
  rw [List.mem_filter, Bool.and_eq_true] at hmp
  exact ⟨mp, hmp.1, hmp.2.1, rfl⟩

/-- Where the lookup in `tokensMap` finds an entry: on an input passing the size floor, every
pair attached to an output token is `getPair` of a raw pair both of whose legs pass the
oracle, and the address of an output token that is non-empty, or any address when every
base and quote symbol of an eligible raw pair has a metadata entry, is the base or quote
symbol of such an eligible raw pair. -/
theorem generateTokenList_eligibility (L : Lib) (W : World) (ord : MapOrder)
    (marketPairs : List MarketPair) (tokenList : List RawToken)
    (hmp : 5 ≤ marketPairs.length) (htl : 5 ≤ tokenList.length) :
    ∃ items : List Token,
      (generateTokenList L W ord marketPairs tokenList).tokens = some items ∧
      (∀ t ∈ items, ∀ p ∈ Slice.toList t.Pairs,
        ∃ mp ∈ marketPairs, eligible L W mp = true ∧ p = getPair L mp) ∧
      (∀ t ∈ items, t.Address ≠ "" ∨ MetadataComplete L W marketPairs tokenList →
        Collected L W marketPairs t.Address) := by
  rw [generateTokenList_of_floor L W ord marketPairs tokenList hmp htl]
  refine ⟨_, rfl, ?_, ?_⟩
  · intro t ht
    rw [List.mem_map] at ht
    obtain ⟨k, _, rfl⟩ := ht
    exact tokenItem_pairs_eligible L W marketPairs _ k
  · intro t ht hor
    rw [List.mem_map] at ht
    obtain ⟨k, hk, rfl⟩ := ht
    have hc : Collected L W marketPairs k := (mem_enum_pairsList L W ord marketPairs k).mp hk
    by_cases hm : HasMetadata tokenList k
    · rw [(tokenItem_of_hasMetadata L tokenList _ k hm).1]
      exact hc
    · exfalso
      rcases hor with hne | hcomplete
      · apply hne
        rw [tokenItem_of_no_metadata L tokenList _ k hm]
        rfl
      · obtain ⟨mp, hmem, he, hk'⟩ := hc
        rcases hk' with rfl | rfl
        · exact hm (hcomplete mp hmem he).1
        · exact hm (hcomplete mp hmem he).2

/-- C5, on the code: the input passes the size floor, `ETH-1C9` is collected from eligible
pairs but absent from the raw token list, and the output holds a token whose address is the
empty string, which is neither base nor quote of any eligible raw pair. -/
theorem generateTokenList_eligibility_missing_metadata :
    5 ≤ exPairs.length ∧ 5 ≤ exRawTokensNoETH.length ∧
    Option.map (List.map (fun t => t.Address))
        (generateTokenList exLib (exWorld none) insertionOrder exPairs exRawTokensNoETH).tokens
      = some ["", "BNB", "BUSD-BD1"] ∧
    ¬ Collected exLib (exWorld none) exPairs "" := by
  decide

/-- C6.  `generateTokenList` returns an error and no token list exactly when the raw
market-pair list or the raw token list has fewer than 5 entries; the market-pair list is
checked first, the message ends with the observed length of the offending list, and no
asset-info record has been read. -/
theorem generateTokenList_floor (L : Lib) (W : World) (ord : MapOrder)
    (marketPairs : List MarketPair) (tokenList : List RawToken) :
    (((generateTokenList L W ord marketPairs tokenList).err ≠ none ∧
        (generateTokenList L W ord marketPairs tokenList).tokens = none) ↔
      (marketPairs.length < 5 ∨ tokenList.length < 5)) ∧
    (marketPairs.length < 5 →
      generateTokenList L W ord marketPairs tokenList =
        ⟨none, some ("no markets info is returned from Binance DEX: "
          ++ toString marketPairs.length), []⟩) ∧
    (5 ≤ marketPairs.length → tokenList.length < 5 →
      generateTokenList L W ord marketPairs tokenList =
        ⟨none, some ("no tokens info is returned from Binance DEX: "
          ++ toString tokenList.length), []⟩) ∧
    (5 ≤ marketPairs.length → 5 ≤ tokenList.length →
      (generateTokenList L W ord marketPairs tokenList).err = none ∧
      (generateTokenList L W ord marketPairs tokenList).tokens ≠ none) := by
  have h1 := generateTokenList_of_few_pairs L W ord marketPairs tokenList
  have h2 := generateTokenList_of_few_tokens L W ord marketPairs tokenList
  have h3 : 5 ≤ marketPairs.length → 5 ≤ tokenList.length →
      (generateTokenList L W ord marketPairs tokenList).err = none ∧
      (generateTokenList L W ord marketPairs tokenList).tokens ≠ none := by
    intro h h'
    rw [generateTokenList_of_floor L W ord marketPairs tokenList h h']
    exact ⟨rfl, by simp⟩
  refine ⟨⟨?_, ?_⟩, h1, h2, h3⟩
  · rintro ⟨herr, _⟩
    by_contra hc
    exact herr (h3 (by omega) (by omega)).1
  · intro h
    by_cases hm : marketPairs.length < 5
    · rw [h1 hm]
      exact ⟨by simp, rfl⟩
    · rw [h2 (by omega) (by omega)]
      exact ⟨by simp, rfl⟩

/-- C6, witness: four market pairs, and six market pairs with four tokens. -/
theorem generateTokenList_floor_witness :
    generateTokenList exLib (exWorld none) insertionOrder (exPairs.take 4) exRawTokens =
        ⟨none, some "no markets info is returned from Binance DEX: 4", []⟩ ∧
    generateTokenList exLib (exWorld none) insertionOrder exPairs (exRawTokens.take 4) =
        ⟨none, some "no tokens info is returned from Binance DEX: 4", []⟩ ∧
    (generateTokenList exLib (exWorld none) insertionOrder exPairs exRawTokens).err = none :=
  ⟨(generateTokenList_floor exLib (exWorld none) insertionOrder (exPairs.take 4)
      exRawTokens).2.1 (by decide),
    (generateTokenList_floor exLib (exWorld none) insertionOrder exPairs
      (exRawTokens.take 4)).2.2.1 (by decide) (by decide),
    ((generateTokenList_floor exLib (exWorld none) insertionOrder exPairs
      exRawTokens).2.2.2 (by decide) (by decide)).1⟩

/-! ## Determinism of aggregation followed by sorting -/

/-- Two rearrangements of the same elements that are both ordered coincide, provided elements
that are ordered both ways are equal. -/
theorem eq_of_perm_of_pairwise {α : Type} {r : α → α → Prop} :
    ∀ {l₁ l₂ : List α}, l₁.Perm l₂ → l₁.Pairwise r → l₂.Pairwise r →
      (∀ a ∈ l₁, ∀ b ∈ l₁, r a b → r b a → a = b) → l₁ = l₂
  | [], l₂, hp, _, _, _ => hp.nil_eq
  | a :: t, [], hp, _, _, _ => absurd hp.symm.nil_eq (by simp)
  | a :: t, b :: u, hp, h₁, h₂, hanti => by
    rw [List.pairwise_cons] at h₁ h₂
    have hab : a = b := by
      have ha : a ∈ b :: u := hp.subset (List.mem_cons_self a t)
      have hb : b ∈ a :: t := hp.symm.subset (List.mem_cons_self b u)
      rw [List.mem_cons] at ha hb
      rcases ha with ha | ha
      · exact ha
      · rcases hb with hb | hb
        · exact hb.symm
        · exact hanti a (List.mem_cons_self a t) b (List.mem_cons_of_mem a hb)
            (h₁.1 b hb) (h₂.1 a ha)
    subst hab
    congr 1
    exact eq_of_perm_of_pairwise (List.Perm.cons_inv hp) h₁.2 h₂.2
      (fun x hx y hy => hanti x (List.mem_cons_of_mem a hx) y (List.mem_cons_of_mem a hy))

/-- The call `sort.Slice` returns the same slice on two rearrangements of the same elements
when elements that compare equal are identical. -/
theorem sortSlice_eq_of_perm {α : Type} {less : α → α → Bool} (hw : StrictWeak less)
    {l₁ l₂ : List α} (hp : l₁.Perm l₂)
    (hties : ∀ a ∈ l₁, ∀ b ∈ l₁, less a b = false → less b a = false → a = b) :
    sortSlice less l₁ = sortSlice less l₂ := by
  refine eq_of_perm_of_pairwise
    (((sortSlice_perm less l₁).trans hp).trans (sortSlice_perm less l₂).symm)
    (sortSlice_sorted hw l₁) (sortSlice_sorted hw l₂) ?_
  intro a ha b hb hab hba
  exact hties a ((sortSlice_perm less l₁).mem_iff.mp ha) b
    ((sortSlice_perm less l₁).mem_iff.mp hb) hba hab

theorem tokenLess_tie (a b : Token) (h : tokenLess a b = false) (h' : tokenLess b a = false) :
    a.Address = b.Address := by
  unfold tokenLess at h h'
  by_cases hl : Slice.len a.Pairs = Slice.len b.Pairs
  · simp only [hl, ne_eq, not_true_eq_false, if_false] at h h'
    exact strLess_total _ _ h h'
  · have hl' : ¬ Slice.len b.Pairs = Slice.len a.Pairs := fun e => hl e.symm
    simp only [ne_eq, hl, hl', not_false_eq_true, if_true, decide_eq_false_iff_not] at h h'
    omega

/-- Where the lookup in `tokensMap` cannot make two different tokens share an address (every
base and quote symbol of an eligible raw pair has a metadata entry, or no raw token has the
empty symbol), the sorted token list and the error are the same for any two orders in which
the keys of `pairsList` are enumerated. -/
theorem generateTokenList_sortTokens_deterministic (L : Lib) (W : World)
    (ord₁ ord₂ : MapOrder) (marketPairs : List MarketPair) (tokenList : List RawToken)
    (h : MetadataComplete L W marketPairs tokenList ∨ ∀ t ∈ tokenList, t.Symbol ≠ "") :
    Option.map sortTokens (generateTokenList L W ord₁ marketPairs tokenList).tokens
        = Option.map sortTokens (generateTokenList L W ord₂ marketPairs tokenList).tokens ∧
    (generateTokenList L W ord₁ marketPairs tokenList).err
        = (generateTokenList L W ord₂ marketPairs tokenList).err := by
  by_cases hmp : marketPairs.length < 5
  · rw [generateTokenList_of_few_pairs L W ord₁ marketPairs tokenList hmp,
      generateTokenList_of_few_pairs L W ord₂ marketPairs tokenList hmp]
    exact ⟨rfl, rfl⟩
  by_cases htl : tokenList.length < 5
  · rw [generateTokenList_of_few_tokens L W ord₁ marketPairs tokenList (by omega) htl,
      generateTokenList_of_few_tokens L W ord₂ marketPairs tokenList (by omega) htl]
    exact ⟨rfl, rfl⟩
  rw [generateTokenList_of_floor L W ord₁ marketPairs tokenList (by omega) (by omega),
    generateTokenList_of_floor L W ord₂ marketPairs tokenList (by omega) (by omega)]
  refine ⟨?_, rfl⟩
  simp only [Option.map_some', Option.some.injEq]
  unfold sortTokens
  congr 1
  apply sortSlice_eq_of_perm tokenLess_strictWeak
  · exact (((ord₁.perm _).trans (ord₂.perm _).symm).map _)
  · intro a ha b hb hab hba
    rw [List.mem_map] at ha hb
    obtain ⟨k₁, hk₁, rfl⟩ := ha
    obtain ⟨k₂, hk₂, rfl⟩ := hb
    have haddr := tokenLess_tie _ _ hab hba
    have hc₁ := (mem_enum_pairsList L W ord₁ marketPairs k₁).mp hk₁
    have hc₂ := (mem_enum_pairsList L W ord₁ marketPairs k₂).mp hk₂
    have hmeta_of : ∀ k, Collected L W marketPairs k →
        MetadataComplete L W marketPairs tokenList → HasMetadata tokenList k := by
      intro k hc hcomplete
      obtain ⟨mp, hmem, he, hk'⟩ := hc
      rcases hk' with rfl | rfl
      · exact (hcomplete mp hmem he).1
      · exact (hcomplete mp hmem he).2
    have hclash : ∀ k k', HasMetadata tokenList k → Collected L W marketPairs k' →
        ¬ HasMetadata tokenList k' → k = "" → False := by
      intro k k' hm hc hn hk
      rcases h with hcomplete | hblank
      · exact hn (hmeta_of k' hc hcomplete)
      · obtain ⟨t, ht, hs⟩ := hm
        exact hblank t ht (hs.trans hk)
    by_cases hm₁ : HasMetadata tokenList k₁
    · by_cases hm₂ : HasMetadata tokenList k₂
      · rw [(tokenItem_of_hasMetadata L tokenList _ k₁ hm₁).1,
          (tokenItem_of_hasMetadata L tokenList _ k₂ hm₂).1] at haddr
        rw [haddr]
      · rw [(tokenItem_of_hasMetadata L tokenList _ k₁ hm₁).1,
          tokenItem_of_no_metadata L tokenList _ k₂ hm₂] at haddr
        exact (hclash k₁ k₂ hm₁ hc₂ hm₂ haddr).elim
    · by_cases hm₂ : HasMetadata tokenList k₂
      · rw [(tokenItem_of_hasMetadata L tokenList _ k₂ hm₂).1,
          tokenItem_of_no_metadata L tokenList _ k₁ hm₁] at haddr
        exact (hclash k₂ k₁ hm₂ hc₁ hm₁ haddr.symm).elim
      · rw [tokenItem_of_no_metadata L tokenList _ k₁ hm₁,
          tokenItem_of_no_metadata L tokenList _ k₂ hm₂]

/-- C4, on the code: the input passes the size floor, a raw token carries the empty symbol
and the collected symbol `BNB` has no metadata entry; both yield a token with the empty
address and without pairs, the two tokens differ in name, and the sorted list depends on the
order in which `pairsList` was enumerated. -/
theorem generateTokenList_sortTokens_order_dependent :
    5 ≤ exPairsBlank.length ∧ 5 ≤ exRawTokensBlank.length ∧
    Option.map (fun l => (sortTokens l).map (fun t => (t.Address, t.Name)))
        (generateTokenList exLib exWorldBlank insertionOrder exPairsBlank exRawTokensBlank).tokens
      = some [("", "Nameless"), ("", "")] ∧
    Option.map (fun l => (sortTokens l).map (fun t => (t.Address, t.Name)))
        (generateTokenList exLib exWorldBlank reverseOrder exPairsBlank exRawTokensBlank).tokens
      = some [("", ""), ("", "Nameless")] ∧
    Option.map sortTokens
        (generateTokenList exLib exWorldBlank insertionOrder exPairsBlank exRawTokensBlank).tokens
      ≠ Option.map sortTokens
        (generateTokenList exLib exWorldBlank reverseOrder exPairsBlank exRawTokensBlank).tokens := by
  decide

/-! ## The oracle, the resolver and the name -/

/-- C12.  The oracle `isTokenExistOrActive` returns true exactly when the symbol is the chain's
native symbol, or the asset-info record of the symbol is read successfully and its status is
`active`; for the native symbol no record is read, and a failed read yields false, a plain
boolean and no error. -/
theorem isTokenExistOrActive_fail_closed (L : Lib) (W : World) (symbol : String) :
    (isTokenExistOrActive L W symbol = true ↔
      symbol = (L.Coins BINANCE).Symbol ∨
        ∃ infoAsset : AssetModel,
          W.readAssetInfo (L.GetAssetInfoPath (L.Coins BINANCE).Handle symbol) = some infoAsset ∧
          infoAsset.GetStatus = activeStatus) ∧
    (symbol = (L.Coins BINANCE).Symbol → oracleReads L symbol = []) ∧
    (symbol ≠ (L.Coins BINANCE).Symbol →
      W.readAssetInfo (L.GetAssetInfoPath (L.Coins BINANCE).Handle symbol) = none →
      isTokenExistOrActive L W symbol = false) := by
  refine ⟨?_, ?_, ?_⟩
  · unfold isTokenExistOrActive
    by_cases hn : symbol = (L.Coins BINANCE).Symbol
    · simp [hn]
    · rw [if_neg hn]
      cases hr : W.readAssetInfo (L.GetAssetInfoPath (L.Coins BINANCE).Handle symbol) with
      | none => simp [hn]
      | some infoAsset =>
        by_cases hs : infoAsset.GetStatus = activeStatus
        · simp [hn, hs]
        · simp [hn, hs]
  · intro hn
    unfold oracleReads
    rw [if_pos hn]
  · intro hn hr
    unfold isTokenExistOrActive
    rw [if_neg hn, hr]

/-- C12, witness: in the sample world the native symbol and an active asset pass, an abandoned
asset and an asset without record do not. -/
theorem isTokenExistOrActive_fail_closed_witness :
    isTokenExistOrActive exLib (exWorld none) "BNB" = true ∧
    oracleReads exLib "BNB" = [] ∧
    isTokenExistOrActive exLib (exWorld none) "BUSD-BD1" = true ∧
    isTokenExistOrActive exLib (exWorld none) "OLD-000" = false ∧
    isTokenExistOrActive exLib (exWorld none) "XYZ-111" = false :=
  ⟨(isTokenExistOrActive_fail_closed exLib (exWorld none) "BNB").1.mpr (Or.inl (by decide)),
    (isTokenExistOrActive_fail_closed exLib (exWorld none) "BNB").2.1 (by decide),
    (isTokenExistOrActive_fail_closed exLib (exWorld none) "BUSD-BD1").1.mpr
      (Or.inr ⟨⟨some "active"⟩, by decide, by decide⟩),
    by decide,
    (isTokenExistOrActive_fail_closed exLib (exWorld none) "XYZ-111").2.2 (by decide)
      (by decide)⟩

/-- C15, amended.  The function `getTokenName` returns `BNB Beacon Chain` when the symbol is the
chain's native symbol and the name is `Binance Chain Native Token`, and returns the metadata
name unchanged for every other combination of symbol and name; so the name is rewritten
exactly in the first case, and `BNB Beacon Chain` is returned exactly in the first case or
when the metadata name already is `BNB Beacon Chain`. -/
theorem getTokenName_legacy_rename (L : Lib) (t : RawToken) :
    (t.Symbol = (L.Coins BINANCE).Symbol ∧ t.Name = "Binance Chain Native Token" →
      getTokenName L t = "BNB Beacon Chain") ∧
    (¬ (t.Symbol = (L.Coins BINANCE).Symbol ∧ t.Name = "Binance Chain Native Token") →
      getTokenName L t = t.Name) ∧
    (getTokenName L t ≠ t.Name ↔
      t.Symbol = (L.Coins BINANCE).Symbol ∧ t.Name = "Binance Chain Native Token") ∧
    (getTokenName L t = "BNB Beacon Chain" ↔
      (t.Symbol = (L.Coins BINANCE).Symbol ∧ t.Name = "Binance Chain Native Token") ∨
        t.Name = "BNB Beacon Chain") := by
  unfold getTokenName
  by_cases h : t.Symbol = (L.Coins BINANCE).Symbol ∧ t.Name = "Binance Chain Native Token"
  · rw [if_pos h]
    refine ⟨fun _ => rfl, fun h' => absurd h h', ?_, ?_⟩
    · constructor
      · intro _
        exact h
      · intro _
        rw [h.2]
        decide
    · constructor
      · intro _
        exact Or.inl h
      · intro _
        rfl
  · rw [if_neg h]
    refine ⟨fun h' => absurd h' h, fun _ => rfl, ?_, ?_⟩
    · constructor
      · intro h'
        exact absurd rfl h'
      · intro h'
        exact absurd h' h
    · constructor
      · intro h'
        exact Or.inr h'
      · rintro (h' | h')
        · exact absurd h' h
        · exact h'

/-- C15, witness: the native token with the legacy name is renamed, a token with another
symbol carrying the legacy name is not. -/
theorem getTokenName_legacy_rename_witness :
    getTokenName exLib ⟨"Binance Chain Native Token", "BNB", "BNB"⟩ = "BNB Beacon Chain" ∧
    getTokenName exLib ⟨"Binance Chain Native Token", "XYZ", "XYZ-111"⟩
      = "Binance Chain Native Token" :=
  ⟨(getTokenName_legacy_rename exLib ⟨"Binance Chain Native Token", "BNB", "BNB"⟩).1
      (by decide),
    (getTokenName_legacy_rename exLib ⟨"Binance Chain Native Token", "XYZ", "XYZ-111"⟩).2.1
      (by decide)⟩

/-- C15 as stated fails for a token whose metadata name already is `BNB Beacon Chain`: that
name is returned although the name is not the legacy one. -/
theorem getTokenName_returns_brand_name_unchanged :
    getTokenName exLib ⟨"BNB Beacon Chain", "BNB", "BNB"⟩ = "BNB Beacon Chain" ∧
    ¬ ((⟨"BNB Beacon Chain", "BNB", "BNB"⟩ : RawToken).Symbol = (exLib.Coins BINANCE).Symbol ∧
      (⟨"BNB Beacon Chain", "BNB", "BNB"⟩ : RawToken).Name = "Binance Chain Native Token") := by
  decide

/-- C16.  The function `getAssetIDSymbol` returns the native-asset form `BuildID(coinType, "")`
when the symbol is the native symbol and the token form `BuildID(coinType, symbol)` otherwise;
`getTokenType` returns the coin kind when the symbol is the native symbol and the given type
otherwise; and, the coin kind and the `BEP2` kind being different constants, every token
produced by `generateTokenList` has the coin kind exactly when its address is the native
symbol, and its asset is `getAssetIDSymbol` of its address. -/
theorem getAssetIDSymbol_getTokenType_tokens (L : Lib) (W : World) (ord : MapOrder)
    (marketPairs : List MarketPair) (tokenList : List RawToken)
    (hkinds : L.TypeCoin ≠ L.TypeBEP2) :
    (∀ (symbol native : String) (coinType : Nat),
      (symbol = native → getAssetIDSymbol L symbol native coinType = L.BuildID coinType "") ∧
      (symbol ≠ native →
        getAssetIDSymbol L symbol native coinType = L.BuildID coinType symbol)) ∧
    (∀ symbol native tokenType : String,
      (symbol = native → getTokenType L symbol native tokenType = L.TypeCoin) ∧
      (symbol ≠ native → getTokenType L symbol native tokenType = tokenType)) ∧
    (∀ t ∈ Slice.toList (generateTokenList L W ord marketPairs tokenList).tokens,
      (t.Type_ = L.TypeCoin ↔ t.Address = (L.Coins BINANCE).Symbol) ∧
      t.Asset = getAssetIDSymbol L t.Address (L.Coins BINANCE).Symbol BINANCE) := by
  refine ⟨?_, ?_, ?_⟩
  · intro symbol native coinType
    unfold getAssetIDSymbol
    exact ⟨fun h => by rw [if_pos h], fun h => by rw [if_neg h]⟩
  · intro symbol native tokenType
    unfold getTokenType
    exact ⟨fun h => by rw [if_pos h], fun h => by rw [if_neg h]⟩
  · intro t ht
    by_cases hmp : marketPairs.length < 5
    · rw [generateTokenList_of_few_pairs L W ord marketPairs tokenList hmp] at ht
      simp [Slice.toList] at ht
    by_cases htl : tokenList.length < 5
    · rw [generateTokenList_of_few_tokens L W ord marketPairs tokenList (by omega) htl] at ht
      simp [Slice.toList] at ht
    rw [generateTokenList_of_floor L W ord marketPairs tokenList (by omega) (by omega)] at ht
    simp only [Slice.toList, List.mem_map] at ht
    obtain ⟨k, _, rfl⟩ := ht
    refine ⟨?_, rfl⟩
    simp only [tokenItem, getTokenType]
    constructor
    · intro h
      by_contra hne
      rw [if_neg hne] at h
      exact hkinds h.symm
    · intro h
      rw [if_pos h]

/-- C16, witness: in the sample run the token with address `BNB` is the only coin. -/
theorem getAssetIDSymbol_getTokenType_tokens_witness :
    Option.map (List.map (fun t => (t.Address, t.Type_, t.Asset)))
        (generateTokenList exLib (exWorld none) insertionOrder exPairs exRawTokens).tokens
      = some [("ETH-1C9", "BEP2", "c714_tETH-1C9"), ("BNB", "coin", "c714"),
          ("BUSD-BD1", "BEP2", "c714_tBUSD-BD1")] ∧
    ((∀ (symbol native : String) (coinType : Nat),
      (symbol = native →
        getAssetIDSymbol exLib symbol native coinType = exLib.BuildID coinType "") ∧
      (symbol ≠ native →
        getAssetIDSymbol exLib symbol native coinType = exLib.BuildID coinType symbol)) ∧
    (∀ symbol native tokenType : String,
      (symbol = native → getTokenType exLib symbol native tokenType = exLib.TypeCoin) ∧
      (symbol ≠ native → getTokenType exLib symbol native tokenType = tokenType)) ∧
    (∀ t ∈ Slice.toList
        (generateTokenList exLib (exWorld none) insertionOrder exPairs exRawTokens).tokens,
      (t.Type_ = exLib.TypeCoin ↔ t.Address = (exLib.Coins BINANCE).Symbol) ∧
      t.Asset = getAssetIDSymbol exLib t.Address (exLib.Coins BINANCE).Symbol BINANCE)) :=
  ⟨by decide,
    getAssetIDSymbol_getTokenType_tokens exLib (exWorld none) insertionOrder exPairs
      exRawTokens (by decide)⟩

/-! ## `sortTokens` keeps the tokens and their pairs -/

theorem foldl_add_eq_sum {α : Type} (f : α → Nat) :
    ∀ (l : List α) (a : Nat), l.foldl (fun c t => c + f t) a = a + (l.map f).sum
  | [], a => by simp
  | x :: xs, a => by
    simp only [List.foldl_cons, List.map_cons, List.sum_cons]
    rw [foldl_add_eq_sum f xs (a + f x)]
    omega

theorem countTotalPairs_eq_sum (tokens : List Token) :
    countTotalPairs tokens = (tokens.map (fun t => Slice.len t.Pairs)).sum := by
  unfold countTotalPairs
  rw [foldl_add_eq_sum (fun t => Slice.len t.Pairs) tokens 0]
  omega

theorem countTotalPairs_perm {l₁ l₂ : List Token} (h : l₁.Perm l₂) :
    countTotalPairs l₁ = countTotalPairs l₂ := by
  rw [countTotalPairs_eq_sum, countTotalPairs_eq_sum]
  exact (h.map _).sum_eq

theorem toList_map_sortSlice_perm {α : Type} (less : α → α → Bool) (s : Slice α) :
    (Slice.toList (Option.map (sortSlice less) s)).Perm (Slice.toList s) := by
  cases s with
  | none => exact List.Perm.refl _
  | some l => exact sortSlice_perm less l

/-- C18.  The result of `sortTokens` is a rearrangement of the input tokens in which every
token keeps all its fields except that its pairs are a rearrangement of its original pairs
(a nil pair slice stays nil); the length of the list and `countTotalPairs` are unchanged. -/
theorem sortTokens_conserves (tokens : List Token) :
    (∃ σ : List Token, σ.Perm tokens ∧
      List.Forall₂ (fun t u =>
          u.Asset = t.Asset ∧ u.Type_ = t.Type_ ∧ u.Address = t.Address ∧ u.Name = t.Name ∧
          u.Symbol = t.Symbol ∧ u.Decimals = t.Decimals ∧ u.LogoURI = t.LogoURI ∧
          (Slice.toList u.Pairs).Perm (Slice.toList t.Pairs) ∧
          (u.Pairs = none ↔ t.Pairs = none))
        σ (sortTokens tokens)) ∧
    (sortTokens tokens).length = tokens.length ∧
    countTotalPairs (sortTokens tokens) = countTotalPairs tokens := by
  refine ⟨⟨sortSlice tokenLess tokens, sortSlice_perm tokenLess tokens, ?_⟩, ?_, ?_⟩
  · unfold sortTokens
    rw [List.forall₂_map_right_iff, List.forall₂_same]
    intro t _
    refine ⟨rfl, rfl, rfl, rfl, rfl, rfl, rfl, toList_map_sortSlice_perm pairLess t.Pairs, ?_⟩
    cases t.Pairs <;> simp
  · unfold sortTokens
    rw [List.length_map]
    exact (sortSlice_perm tokenLess tokens).length_eq
  · rw [countTotalPairs_eq_sum, countTotalPairs_eq_sum]
    unfold sortTokens
    rw [List.map_map]
    have hfun : ((fun t : Token => Slice.len t.Pairs) ∘
        fun token : Token =>
          { token with Pairs := Option.map (sortSlice pairLess) token.Pairs })
        = fun t : Token => Slice.len t.Pairs := by
      funext t
      exact len_map_sortSlice pairLess t.Pairs
    rw [hfun]
    exact ((sortSlice_perm tokenLess tokens).map _).sum_eq

/-! ## Counting the tokens and pairs of `generateTokenList` -/

theorem mem_collectedSymbols (L : Lib) (W : World) (marketPairs : List MarketPair)
    (S : String) :
    S ∈ collectedSymbols L W marketPairs ↔ Collected L W marketPairs S := by
  unfold collectedSymbols Collected
  rw [List.mem_dedup, List.mem_flatten]
  constructor
  · rintro ⟨l, hl, hS⟩
    rw [List.mem_map] at hl
    obtain ⟨mp, hmp, rfl⟩ := hl
    rw [List.mem_filter] at hmp
    refine ⟨mp, hmp.1, hmp.2, ?_⟩
    simp only [List.mem_cons, List.mem_singleton, List.not_mem_nil, or_false] at hS
    rcases hS with h | h
    · exact Or.inl h.symm
    · exact Or.inr h.symm
  · rintro ⟨mp, hmp, he, hS⟩
    refine ⟨[mp.BaseAssetSymbol, mp.QuoteAssetSymbol], ?_, ?_⟩
    · rw [List.mem_map]
      exact ⟨mp, List.mem_filter.mpr ⟨hmp, he⟩, rfl⟩
    · rcases hS with h | h
      · simp [h]
      · simp [h]

/-- The keys of `pairsList` are the distinct collected symbols, each once. -/
theorem pairsList_perm_collectedSymbols (L : Lib) (W : World) (marketPairs : List MarketPair) :
    (aggregate L W marketPairs).pairsList.Perm (collectedSymbols L W marketPairs) := by
  have hd : (collectedSymbols L W marketPairs).Nodup := by
    unfold collectedSymbols
    exact List.nodup_dedup _
  rw [List.perm_ext_iff_of_nodup (nodup_aggregate_pairsList L W marketPairs) hd]
  intro a
  rw [mem_aggregate_pairsList, mem_collectedSymbols]

/-- One token is appended for every key of `pairsList`, with or without metadata. -/
theorem generateTokenList_length (L : Lib) (W : World) (ord : MapOrder)
    (marketPairs : List MarketPair) (tokenList : List RawToken) :
    ((ord.enum (aggregate L W marketPairs).pairsList).map
        (tokenItem L (tokensMap tokenList) (aggregate L W marketPairs).pairsMap)).length
      = (collectedSymbols L W marketPairs).length := by
  rw [List.length_map, (ord.perm _).length_eq]
  exact (pairsList_perm_collectedSymbols L W marketPairs).length_eq

/-- C11, on the code: in the sample run with a raw token list without `ETH-1C9`, the symbol
`ETH-1C9` is collected from eligible pairs and has no metadata entry, yet the output holds
three tokens, one for each collected symbol; the token for `ETH-1C9` has an empty address,
name and display symbol, taken from no metadata entry, and only two collected symbols have a
metadata entry. -/
theorem generateTokenList_missing_metadata_not_skipped :
    5 ≤ exPairs.length ∧ 5 ≤ exRawTokensNoETH.length ∧
    Collected exLib (exWorld none) exPairs "ETH-1C9" ∧
    ¬ HasMetadata exRawTokensNoETH "ETH-1C9" ∧
    Option.map (List.map (fun t => (t.Address, t.Name, t.Symbol)))
        (generateTokenList exLib (exWorld none) insertionOrder exPairs exRawTokensNoETH).tokens
      = some [("", "", ""), ("BNB", "BNB Beacon Chain", "BNB"), ("BUSD-BD1", "BUSD", "BUSD")] ∧
    ((collectedSymbols exLib (exWorld none) exPairs).filter
        (fun k => decide (HasMetadata exRawTokensNoETH k))).length = 2 ∧
    ¬ HasMetadata exRawTokensNoETH "" := by
  decide

theorem sum_map_indicator (q : String) :
    ∀ ks : List String, ks.Nodup → q ∈ ks →
      (ks.map (fun k => if q = k then 1 else 0)).sum = 1
  | [], _, h => by simp at h
  | a :: ks, hn, hm => by
    rw [List.nodup_cons] at hn
    rw [List.map_cons, List.sum_cons]
    by_cases ha : q = a
    · subst ha
      rw [if_pos rfl]
      have hz : (ks.map (fun k => if q = k then 1 else 0)).sum = 0 := by
        rw [List.sum_eq_zero]
        intro x hx
        rw [List.mem_map] at hx
        obtain ⟨k, hk, rfl⟩ := hx
        rw [if_neg]
        rintro rfl
        exact hn.1 hk
      rw [hz]
    · rw [if_neg ha, Nat.zero_add]
      rw [List.mem_cons] at hm
      rcases hm with hm | hm
      · exact absurd hm ha
      · exact sum_map_indicator q ks hn.2 hm

theorem quoting_cons (L : Lib) (W : World) (mp : MarketPair) (l : List MarketPair)
    (S : String) :
    (quoting L W (mp :: l) S).length =
      (if eligible L W mp = true then (if mp.QuoteAssetSymbol = S then 1 else 0) else 0)
        + (quoting L W l S).length := by
  unfold quoting
  by_cases he : eligible L W mp = true
  · by_cases hs : mp.QuoteAssetSymbol = S
    · rw [List.filter_cons_of_pos (by simp [he, hs]), if_pos he, if_pos hs, List.length_cons]
      omega
    · rw [List.filter_cons_of_neg (by simp [hs]), if_pos he, if_neg hs]
      omega
  · rw [List.filter_cons_of_neg (by simp [he]), if_neg he]
    omega

/-- Over a duplicate-free list of symbols that holds the quote of every eligible raw pair, the
numbers of eligible pairs quoting each symbol add up to the number of eligible pairs. -/
theorem sum_quoting_length (L : Lib) (W : World) (ks : List String) (hn : ks.Nodup) :
    ∀ marketPairs : List MarketPair,
      (∀ mp ∈ marketPairs, eligible L W mp = true → mp.QuoteAssetSymbol ∈ ks) →
      (ks.map (fun k => (quoting L W marketPairs k).length)).sum
        = (marketPairs.filter (eligible L W)).length
  | [], _ => by simp [quoting]
  | mp :: l, h => by
    have ih := sum_quoting_length L W ks hn l
      (fun m hm he => h m (List.mem_cons_of_mem mp hm) he)
    have hfun : (fun k => (quoting L W (mp :: l) k).length)
        = fun k => (if eligible L W mp = true then
            (if mp.QuoteAssetSymbol = k then 1 else 0) else 0)
          + (quoting L W l k).length := by
      funext k
      exact quoting_cons L W mp l k
    rw [hfun, List.sum_map_add, ih]
    by_cases he : eligible L W mp = true
    · rw [List.filter_cons_of_pos he, List.length_cons]
      simp only [he, if_true]
      rw [sum_map_indicator mp.QuoteAssetSymbol ks hn (h mp (List.mem_cons_self mp l) he)]
      omega
    · rw [List.filter_cons_of_neg he]
      have hz : (ks.map (fun k => if eligible L W mp = true then
          (if mp.QuoteAssetSymbol = k then 1 else 0) else 0)).sum = 0 := by
        rw [List.sum_eq_zero]
        intro x hx
        rw [List.mem_map] at hx
        obtain ⟨k, _, rfl⟩ := hx
        rw [if_neg he]
      rw [hz, Nat.zero_add]

theorem hasMetadata_of_collected (L : Lib) (W : World) (marketPairs : List MarketPair)
    (tokenList : List RawToken) (hmeta : MetadataComplete L W marketPairs tokenList)
    (k : String) (hc : Collected L W marketPairs k) : HasMetadata tokenList k := by
  obtain ⟨mp, hmem, he, hk⟩ := hc
  rcases hk with rfl | rfl
  · exact (hmeta mp hmem he).1
  · exact (hmeta mp hmem he).2

theorem quoting_eq_nil_of_no_metadata (L : Lib) (W : World) (marketPairs : List MarketPair)
    (tokenList : List RawToken)
    (hquote : ∀ mp ∈ marketPairs, eligible L W mp = true →
      HasMetadata tokenList mp.QuoteAssetSymbol)
    (k : String) (hk : ¬ HasMetadata tokenList k) : quoting L W marketPairs k = [] := by
  unfold quoting
  rw [List.filter_eq_nil_iff]
  intro mp hmp hp
  rw [Bool.and_eq_true, decide_eq_true_eq] at hp
  exact hk (hp.2 ▸ hquote mp hmp hp.1)

/-- Where the token built for a symbol without metadata carries no pairs: on an input passing
the size floor in which every quote symbol of an eligible raw pair has a metadata entry and,
unless every base symbol has one too, no eligible raw pair quotes the empty symbol,
`countTotalPairs` of the output is the number of eligible raw pairs, one token is appended
for every collected symbol, and for every eligible raw pair exactly one output token has its
quote as address, and that token holds the pair. -/
theorem generateTokenList_conserves_pairs (L : Lib) (W : World) (ord : MapOrder)
    (marketPairs : List MarketPair) (tokenList : List RawToken)
    (hmp : 5 ≤ marketPairs.length) (htl : 5 ≤ tokenList.length)
    (hquote : ∀ mp ∈ marketPairs, eligible L W mp = true →
      HasMetadata tokenList mp.QuoteAssetSymbol)
    (hblank : MetadataComplete L W marketPairs tokenList ∨ quoting L W marketPairs "" = []) :
    ∃ items : List Token,
      (generateTokenList L W ord marketPairs tokenList).tokens = some items ∧
      countTotalPairs items = (marketPairs.filter (eligible L W)).length ∧
      items.length = (collectedSymbols L W marketPairs).length ∧
      (∀ mp ∈ marketPairs, eligible L W mp = true →
        ∃ t : Token, items.filter (fun u => decide (u.Address = mp.QuoteAssetSymbol)) = [t] ∧
          getPair L mp ∈ Slice.toList t.Pairs) := by
  rw [generateTokenList_of_floor L W ord marketPairs tokenList hmp htl]
  refine ⟨_, rfl, ?_, generateTokenList_length L W ord marketPairs tokenList, ?_⟩
  · rw [countTotalPairs_eq_sum, List.map_map]
    have hlen : ∀ k ∈ ord.enum (aggregate L W marketPairs).pairsList,
        ((fun t : Token => Slice.len t.Pairs) ∘
          tokenItem L (tokensMap tokenList) (aggregate L W marketPairs).pairsMap) k
        = (quoting L W marketPairs k).length := by
      intro k hk
      have hc := (mem_enum_pairsList L W ord marketPairs k).mp hk
      simp only [Function.comp_apply, Slice.len]
      by_cases hm : HasMetadata tokenList k
      · rw [(tokenItem_of_hasMetadata L tokenList _ k hm).2, aggregate_pairsMap, toList_sliceOf,
          List.length_map]
      · rcases hblank with hcomplete | hnil
        · exact absurd (hasMetadata_of_collected L W marketPairs tokenList hcomplete k hc) hm
        · rw [tokenItem_of_no_metadata L tokenList _ k hm,
            quoting_eq_nil_of_no_metadata L W marketPairs tokenList hquote k hm]
          simp only [tokenItem, Option.getD_none, RawToken.zero, aggregate_pairsMap, hnil,
            List.map_nil, toList_sliceOf, List.length_nil]
    rw [List.map_congr_left hlen, ((ord.perm _).map _).sum_eq]
    apply sum_quoting_length L W _ (nodup_aggregate_pairsList L W marketPairs)
    intro mp hmem he
    exact (mem_aggregate_pairsList L W marketPairs _).mpr ⟨mp, hmem, he, Or.inr rfl⟩
  · intro mp hmem he
    have hq : HasMetadata tokenList mp.QuoteAssetSymbol := hquote mp hmem he
    have hcq : Collected L W marketPairs mp.QuoteAssetSymbol := ⟨mp, hmem, he, Or.inr rfl⟩
    have hmq : mp ∈ quoting L W marketPairs mp.QuoteAssetSymbol := by
      unfold quoting
      rw [List.mem_filter]
      exact ⟨hmem, by simp [he]⟩
    refine ⟨tokenItem L (tokensMap tokenList) (aggregate L W marketPairs).pairsMap
      mp.QuoteAssetSymbol, ?_, ?_⟩
    · rw [List.filter_map]
      have hcongr : (ord.enum (aggregate L W marketPairs).pairsList).filter
            ((fun u : Token => decide (u.Address = mp.QuoteAssetSymbol)) ∘
              tokenItem L (tokensMap tokenList) (aggregate L W marketPairs).pairsMap)
          = (ord.enum (aggregate L W marketPairs).pairsList).filter
              (fun k => decide (k = mp.QuoteAssetSymbol)) := by
        apply List.filter_congr
        intro k hk
        have hc := (mem_enum_pairsList L W ord marketPairs k).mp hk
        simp only [Function.comp_apply]
        by_cases hm : HasMetadata tokenList k
        · rw [(tokenItem_of_hasMetadata L tokenList _ k hm).1]
        · rcases hblank with hcomplete | hnil
          · exact absurd (hasMetadata_of_collected L W marketPairs tokenList hcomplete k hc) hm
          · have hne : mp.QuoteAssetSymbol ≠ "" := by
              intro h0
              rw [h0] at hmq
              rw [hnil] at hmq
              exact List.not_mem_nil _ hmq
            have hkq : k ≠ mp.QuoteAssetSymbol := fun h0 => hm (h0 ▸ hq)
            rw [tokenItem_of_no_metadata L tokenList _ k hm]
            have haddr : (tokenItem L (fun _ => none) (aggregate L W marketPairs).pairsMap
                "").Address = "" := rfl
            rw [haddr, decide_eq_false (fun h0 => hne h0.symm), decide_eq_false hkq]
      rw [hcongr, filter_eq_singleton_of_nodup mp.QuoteAssetSymbol _
        ((ord.perm _).nodup_iff.mpr (nodup_aggregate_pairsList L W marketPairs))
        ((mem_enum_pairsList L W ord marketPairs mp.QuoteAssetSymbol).mpr hcq)]
      rfl
    · rw [(tokenItem_of_hasMetadata L tokenList _ mp.QuoteAssetSymbol hq).2, aggregate_pairsMap,
        toList_sliceOf]
      exact List.mem_map_of_mem _ hmq

/-- C19, on the code: the input passes the size floor, every quote symbol of an eligible pair
has a metadata entry, one raw pair is eligible, its base `BNB` has no metadata entry and its
quote is the empty symbol; the output holds two tokens with the empty address that each
carry that pair, so `countTotalPairs` is 2 for 1 eligible pair. -/
theorem generateTokenList_counts_pair_twice :
    5 ≤ exPairsQuoteBlank.length ∧ 5 ≤ exRawTokensBlank.length ∧
    (∀ mp ∈ exPairsQuoteBlank, eligible exLib exWorldBlank mp = true →
      HasMetadata exRawTokensBlank mp.QuoteAssetSymbol) ∧
    (exPairsQuoteBlank.filter (eligible exLib exWorldBlank)).length = 1 ∧
    Option.map countTotalPairs
        (generateTokenList exLib exWorldBlank insertionOrder exPairsQuoteBlank
          exRawTokensBlank).tokens = some 2 ∧
    Option.map (List.map (fun t => (t.Address, Slice.len t.Pairs)))
        (generateTokenList exLib exWorldBlank insertionOrder exPairsQuoteBlank
          exRawTokensBlank).tokens = some [("", 1), ("", 1)] := by
  decide

/-! ## The persisted version across runs -/

theorem readTokenList_holding (W : World) (path : String) (store : Option Model) :
    (W.holding path store).readTokenList path = store := by
  simp [World.holding]

theorem reconcile_none (L : Lib) (chain : Coin) (run : World × Slice Token) :
    reconcile L chain none run = none := by
  unfold reconcile
  rw [createTokenListJSON_of_unreadable L _ chain run.2 (readTokenList_holding _ _ _)]
  rfl

/-- One run against a readable document: the document stays when the new list is deeply
equal or empty or the write fails, and is replaced by the next version otherwise. -/
theorem reconcile_some (L : Lib) (chain : Coin) (D : Model) (W : World) (T : Slice Token) :
    reconcile L chain (some D) (W, T) =
      if D.Tokens = T then some D
      else if Slice.len T = 0 then some D
      else
        match W.createJSONFile (L.GetTokenListPath chain.Handle)
            ⟨"Trust Wallet: " ++ (L.Coins chain.ID).Name, L.Logo, W.now, T,
              ⟨addInt D.Version.Major 1⟩⟩ with
        | some _ => some D
        | none =>
          some ⟨"Trust Wallet: " ++ (L.Coins chain.ID).Name, L.Logo, W.now, T,
            ⟨addInt D.Version.Major 1⟩⟩ := by
  unfold reconcile
  rw [createTokenListJSON_of_readable L _ chain T D (readTokenList_holding _ _ _)]
  by_cases he : D.Tokens = T
  · rw [if_pos he, if_pos he]
    rfl
  · rw [if_neg he, if_neg he]
    by_cases hl : Slice.len T = 0
    · rw [if_pos hl, if_pos hl]
      rfl
    · rw [if_neg hl, if_neg hl]
      have hW : (W.holding (L.GetTokenListPath chain.Handle) (some D)).createJSONFile
          = W.createJSONFile := rfl
      have hn : (W.holding (L.GetTokenListPath chain.Handle) (some D)).now = W.now := rfl
      rw [hW, hn]
      cases hc : W.createJSONFile (L.GetTokenListPath chain.Handle)
          ⟨"Trust Wallet: " ++ (L.Coins chain.ID).Name, L.Logo, W.now, T,
            ⟨addInt D.Version.Major 1⟩⟩ with
      | some e => simp [persisted]
      | none => simp [persisted, readBack]

/-- What one run does to a readable document whose major version is below the largest `int`:
it keeps the document, or replaces it by one with the next major version and a non-empty
token list. -/
theorem reconcile_step (L : Lib) (chain : Coin) (D : Model) (W : World) (T : Slice Token)
    (hmin : minInt ≤ D.Version.Major) (hmax : D.Version.Major < maxInt) :
    reconcile L chain (some D) (W, T) = some D ∨
      ∃ D' : Model, reconcile L chain (some D) (W, T) = some D' ∧
        D'.Version.Major = D.Version.Major + 1 ∧ D'.Tokens = T ∧ Slice.len T ≠ 0 := by
  rw [reconcile_some]
  by_cases he : D.Tokens = T
  · rw [if_pos he]
    exact Or.inl rfl
  · rw [if_neg he]
    by_cases hl : Slice.len T = 0
    · rw [if_pos hl]
      exact Or.inl rfl
    · rw [if_neg hl]
      cases W.createJSONFile (L.GetTokenListPath chain.Handle)
          ⟨"Trust Wallet: " ++ (L.Coins chain.ID).Name, L.Logo, W.now, T,
            ⟨addInt D.Version.Major 1⟩⟩ with
      | some e => exact Or.inl rfl
      | none =>
        exact Or.inr ⟨_, rfl, wrapInt_eq_self (by omega) (by omega), rfl, hl⟩

theorem reconcileAll_bounds (L : Lib) (chain : Coin) :
    ∀ (runs : List (World × Slice Token)) (D₀ : Model),
      minInt ≤ D₀.Version.Major → D₀.Version.Major + runs.length ≤ maxInt →
      ∃ D : Model, reconcileAll L chain (some D₀) runs = some D ∧
        D₀.Version.Major ≤ D.Version.Major ∧
        D.Version.Major ≤ D₀.Version.Major + runs.length ∧
        (Slice.len D₀.Tokens ≠ 0 → Slice.len D.Tokens ≠ 0)
  | [], D₀, _, _ => ⟨D₀, rfl, le_refl _, by simp, fun h => h⟩
  | (W, T) :: runs, D₀, hmin, hmax => by
    have hlen : (((W, T) :: runs).length : Int) = runs.length + 1 := by simp
    rw [hlen] at hmax
    have hstep : reconcileAll L chain (some D₀) ((W, T) :: runs)
        = reconcileAll L chain (reconcile L chain (some D₀) (W, T)) runs := rfl
    rw [hstep, hlen]
    rcases reconcile_step L chain D₀ W T hmin (by omega) with h | ⟨D₁, h, hmajor, htok, hne⟩
    · rw [h]
      obtain ⟨D, hD, h1, h2, h3⟩ := reconcileAll_bounds L chain runs D₀ hmin (by omega)
      exact ⟨D, hD, h1, by omega, h3⟩
    · rw [h]
      obtain ⟨D, hD, h1, h2, h3⟩ := reconcileAll_bounds L chain runs D₁ (by omega) (by omega)
      refine ⟨D, hD, by omega, by omega, fun _ => h3 ?_⟩
      rw [htok]
      exact hne

/-- C13, amended.  Start from a persisted document whose major version is a Go `int` that
stays below the largest one over the runs considered.  After any finite sequence of runs a
document is persisted whose major version is at least the initial one and exceeds it by at
most the number of runs, and a non-empty initial token list has not become empty.  The next
run calls the writer at most once; when it writes, the major version increases by exactly one
and the written token list is the non-empty new list; when it does not, the persisted document
is unchanged. -/
theorem reconcileAll_version_monotone (L : Lib) (chain : Coin) (D₀ : Model)
    (runs : List (World × Slice Token)) (W : World) (T : Slice Token)
    (hmin : minInt ≤ D₀.Version.Major)
    (hmax : D₀.Version.Major + runs.length < maxInt) :
    ∃ D : Model, reconcileAll L chain (some D₀) runs = some D ∧
      D₀.Version.Major ≤ D.Version.Major ∧
      D.Version.Major ≤ D₀.Version.Major + runs.length ∧
      (Slice.len D₀.Tokens ≠ 0 → Slice.len D.Tokens ≠ 0) ∧
      (createTokenListJSON L (W.holding (L.GetTokenListPath chain.Handle) (some D)) chain
        T).writes.length ≤ 1 ∧
      ((createTokenListJSON L (W.holding (L.GetTokenListPath chain.Handle) (some D)) chain
          T).writes ≠ [] ∧
        (createTokenListJSON L (W.holding (L.GetTokenListPath chain.Handle) (some D)) chain
          T).err = none →
        ∃ D' : Model, reconcile L chain (some D) (W, T) = some D' ∧
          D'.Version.Major = D.Version.Major + 1 ∧ D'.Tokens = T ∧ Slice.len T ≠ 0 ∧
          (createTokenListJSON L (W.holding (L.GetTokenListPath chain.Handle) (some D)) chain
            T).writes = [(L.GetTokenListPath chain.Handle, D')]) ∧
      ((createTokenListJSON L (W.holding (L.GetTokenListPath chain.Handle) (some D)) chain
          T).writes = [] ∨
        (createTokenListJSON L (W.holding (L.GetTokenListPath chain.Handle) (some D)) chain
          T).err ≠ none →
        reconcile L chain (some D) (W, T) = some D) := by
  obtain ⟨D, hD, h1, h2, h3⟩ := reconcileAll_bounds L chain runs D₀ hmin (by omega)
  refine ⟨D, hD, h1, h2, h3, ?_, ?_, ?_⟩
  · rw [createTokenListJSON_of_readable L _ chain T D (readTokenList_holding _ _ _)]
    split
    · simp
    · split <;> simp
  · intro hw
    rw [reconcile_some]
    rw [createTokenListJSON_of_readable L _ chain T D (readTokenList_holding _ _ _)] at hw ⊢
    by_cases he : D.Tokens = T
    · rw [if_pos he] at hw
      exact absurd rfl hw.1
    · by_cases hl : Slice.len T = 0
      · rw [if_neg he, if_pos hl] at hw
        exact absurd rfl hw.1
      · rw [if_neg he, if_neg hl] at hw
        rw [if_neg he, if_neg hl, if_neg he, if_neg hl]
        have hn : (W.holding (L.GetTokenListPath chain.Handle) (some D)).now = W.now := rfl
        have hW : (W.holding (L.GetTokenListPath chain.Handle) (some D)).createJSONFile
            = W.createJSONFile := rfl
        rw [hn, hW] at hw
        have herr : W.createJSONFile (L.GetTokenListPath chain.Handle)
            ⟨"Trust Wallet: " ++ (L.Coins chain.ID).Name, L.Logo, W.now, T,
              ⟨addInt D.Version.Major 1⟩⟩ = none := hw.2
        rw [hn, herr]
        exact ⟨_, rfl, wrapInt_eq_self (by omega) (by omega), rfl, hl, rfl⟩
  · intro hor
    unfold reconcile
    rcases hor with hw | herr
    · have : persisted (some D)
          (createTokenListJSON L (W.holding (L.GetTokenListPath chain.Handle) (some D)) chain T)
          = some D := by
        unfold persisted readBack
        rw [hw]
        split <;> rfl
      exact this
    · unfold persisted
      cases hc : (createTokenListJSON L (W.holding (L.GetTokenListPath chain.Handle) (some D))
          chain T).err with
      | none => exact absurd hc herr
      | some e => rfl

/-- C13, witness: from version 4 with tokens A, B, a run given A, B, C writes version 5, and
the next run given A, B, C again writes nothing. -/
theorem reconcileAll_version_monotone_witness :
    reconcile exLib exChain (some exDocABC) (exWorld none, exABC) = some exDocABC ∧
    ∃ D : Model, reconcileAll exLib exChain (some (exDoc 4 exAB)) [(exWorld none, exABC)]
        = some D ∧
      (exDoc 4 exAB).Version.Major ≤ D.Version.Major ∧
      D.Version.Major ≤ (exDoc 4 exAB).Version.Major + [(exWorld none, exABC)].length ∧
      (Slice.len (exDoc 4 exAB).Tokens ≠ 0 → Slice.len D.Tokens ≠ 0) ∧
      (createTokenListJSON exLib
        ((exWorld none).holding (exLib.GetTokenListPath exChain.Handle) (some D)) exChain
        exABC).writes.length ≤ 1 ∧
      ((createTokenListJSON exLib
          ((exWorld none).holding (exLib.GetTokenListPath exChain.Handle) (some D)) exChain
          exABC).writes ≠ [] ∧
        (createTokenListJSON exLib
          ((exWorld none).holding (exLib.GetTokenListPath exChain.Handle) (some D)) exChain
          exABC).err = none →
        ∃ D' : Model, reconcile exLib exChain (some D) (exWorld none, exABC) = some D' ∧
          D'.Version.Major = D.Version.Major + 1 ∧ D'.Tokens = exABC ∧ Slice.len exABC ≠ 0 ∧
          (createTokenListJSON exLib
            ((exWorld none).holding (exLib.GetTokenListPath exChain.Handle) (some D)) exChain
            exABC).writes = [(exLib.GetTokenListPath exChain.Handle, D')]) ∧
      ((createTokenListJSON exLib
          ((exWorld none).holding (exLib.GetTokenListPath exChain.Handle) (some D)) exChain
          exABC).writes = [] ∨
        (createTokenListJSON exLib
          ((exWorld none).holding (exLib.GetTokenListPath exChain.Handle) (some D)) exChain
          exABC).err ≠ none →
        reconcile exLib exChain (some D) (exWorld none, exABC) = some D) :=
  ⟨by decide,
    reconcileAll_version_monotone exLib exChain (exDoc 4 exAB) [(exWorld none, exABC)]
      (exWorld none) exABC (by decide) (by decide)⟩

/-- C13 as stated fails at the largest Go `int`: from a persisted document with major version
9223372036854775807 one run that writes leaves the major version -9223372036854775808, which
is lower. -/
theorem reconcileAll_version_wraps :
    Option.map (fun d => d.Version.Major)
        (reconcileAll exLib exChain (some (exDoc 9223372036854775807 exAB))
          [(exWorld none, exABC)]) = some (-9223372036854775808) ∧
    (-9223372036854775808 : Int) < (exDoc 9223372036854775807 exAB).Version.Major := by
  decide

/-! ## `fetchMissingAssets` -/

theorem Disk.keeps_refl (D : Disk) : D.Keeps D := ⟨fun _ h => h, fun _ h => h⟩

theorem Disk.keeps_trans {D₁ D₂ D₃ : Disk} (h : D₁.Keeps D₂) (h' : D₂.Keeps D₃) :
    D₁.Keeps D₃ :=
  ⟨fun p hp => h'.1 p (h.1 p hp), fun q hq => h'.2 q (h.2 q hq)⟩

theorem Disk.keeps_withLogo (D : Disk) (path : String) : D.Keeps (D.withLogo path) := by
  refine ⟨fun p hp => ?_, fun q hq => hq⟩
  simp only [Disk.withLogo]
  split
  · rfl
  · exact hp

theorem Disk.keeps_withInfo (D : Disk) (path : String) (record : AssetInfo)
    (hs : record.Status = activeStatus) : D.Keeps (D.withInfo path record) := by
  refine ⟨fun p hp => ?_, fun q hq => ?_⟩
  · simp only [Disk.withInfo]
    split
    · rfl
    · exact hp
  · simp only [Disk.withInfo]
    split
    · rw [hs]
    · exact hq

theorem fetchMissingAssets_cons_skipped (B : BootLib) (chain : Coin) (D : Disk)
    (a : Bep2Asset) (assets : List Bep2Asset) (h : Skipped B chain D a) :
    fetchMissingAssets B chain D (a :: assets) = fetchMissingAssets B chain D assets := by
  rw [fetchMissingAssets]
  by_cases h1 : a.AssetImg = "" ∨ a.Decimals = 0
  · rw [if_pos h1]
  · rw [if_neg h1]
    have h2 : D.fileExists (B.GetAssetLogoPath chain.Handle a.Asset) = true := by
      rcases h with h | h | h
      · exact absurd (Or.inl h) h1
      · exact absurd (Or.inr h) h1
      · exact h
    rw [if_pos h2]

theorem fetchMissingAssets_all_skipped (B : BootLib) (chain : Coin) (D : Disk) :
    ∀ assets : List Bep2Asset, (∀ a ∈ assets, Skipped B chain D a) →
      fetchMissingAssets B chain D assets = ⟨D, [], none⟩
  | [], _ => by rw [fetchMissingAssets]
  | a :: assets, h => by
    rw [fetchMissingAssets_cons_skipped B chain D a assets (h a (List.mem_cons_self a assets))]
    exact fetchMissingAssets_all_skipped B chain D assets
      (fun b hb => h b (List.mem_cons_of_mem a hb))

/-- An asset that is not passed over, in a call that returns no error: the directory, the
logo and the asset-info record are written, and the call goes on with the other assets on the
file system that holds them. -/
theorem fetchMissingAssets_cons_written (B : BootLib) (chain : Coin) (D : Disk)
    (a : Bep2Asset) (assets : List Bep2Asset) (h : ¬ Skipped B chain D a)
    (herr : (fetchMissingAssets B chain D (a :: assets)).err = none) :
    ∃ explorerURL : String,
      fetchMissingAssets B chain D (a :: assets) =
        ⟨(fetchMissingAssets B chain
            ((D.withLogo (B.GetAssetLogoPath chain.Handle a.Asset)).withInfo
              (B.GetAssetInfoPath chain.Handle a.Asset) (assetInfoOf B a explorerURL))
            assets).disk,
          [FileWrite.dir (B.GetAssetLogoPath chain.Handle a.Asset),
            FileWrite.png a.AssetImg (B.GetAssetLogoPath chain.Handle a.Asset),
            FileWrite.info (B.GetAssetInfoPath chain.Handle a.Asset)
              (assetInfoOf B a explorerURL)] ++
            (fetchMissingAssets B chain
              ((D.withLogo (B.GetAssetLogoPath chain.Handle a.Asset)).withInfo
                (B.GetAssetInfoPath chain.Handle a.Asset) (assetInfoOf B a explorerURL))
              assets).writes,
          (fetchMissingAssets B chain
            ((D.withLogo (B.GetAssetLogoPath chain.Handle a.Asset)).withInfo
              (B.GetAssetInfoPath chain.Handle a.Asset) (assetInfoOf B a explorerURL))
            assets).err⟩ := by
  have h1 : ¬ (a.AssetImg = "" ∨ a.Decimals = 0) := by
    rintro (h' | h')
    · exact h (Or.inl h')
    · exact h (Or.inr (Or.inl h'))
  have h2 : ¬ D.fileExists (B.GetAssetLogoPath chain.Handle a.Asset) = true :=
    fun h' => h (Or.inr (Or.inr h'))
  rw [fetchMissingAssets, if_neg h1, if_neg h2] at herr ⊢
  unfold createLogo at herr ⊢
  cases hd : D.createDirPath (B.GetAssetLogoPath chain.Handle a.Asset) with
  | some e => simp [hd] at herr
  | none =>
    cases hp : D.createPNGFromURL a.AssetImg (B.GetAssetLogoPath chain.Handle a.Asset) with
    | some e => simp [hd, hp] at herr
    | none =>
      simp only [hd, hp] at herr ⊢
      unfold createInfoJSON at herr ⊢
      cases hu : B.GetCoinExploreURL chain a.Asset "" with
      | error e => simp [hu] at herr
      | ok explorerURL =>
        have hc : (D.withLogo (B.GetAssetLogoPath chain.Handle a.Asset)).createInfoFile
            = D.createInfoFile := rfl
        cases hi : D.createInfoFile (B.GetAssetInfoPath chain.Handle a.Asset)
            (assetInfoOf B a explorerURL) with
        | some e =>
          simp only [hu, hc] at herr
          have hi' := hi
          unfold assetInfoOf at hi'
          simp [hi'] at herr
        | none =>
          refine ⟨explorerURL, ?_⟩
          have hi' := hi
          unfold assetInfoOf at hi'
          simp only [hu, hc, hi']
          rfl

theorem fetchMissingAssets_keeps (B : BootLib) (chain : Coin) :
    ∀ (assets : List Bep2Asset) (D : Disk),
      D.Keeps (fetchMissingAssets B chain D assets).disk
  | [], D => by
    rw [fetchMissingAssets]
    exact Disk.keeps_refl D
  | a :: assets, D => by
    by_cases hs : Skipped B chain D a
    · rw [fetchMissingAssets_cons_skipped B chain D a assets hs]
      exact fetchMissingAssets_keeps B chain assets D
    · have h1 : ¬ (a.AssetImg = "" ∨ a.Decimals = 0) := by
        rintro (h' | h')
        · exact hs (Or.inl h')
        · exact hs (Or.inr (Or.inl h'))
      have h2 : ¬ D.fileExists (B.GetAssetLogoPath chain.Handle a.Asset) = true :=
        fun h' => hs (Or.inr (Or.inr h'))
      rw [fetchMissingAssets, if_neg h1, if_neg h2]
      unfold createLogo
      cases hd : D.createDirPath (B.GetAssetLogoPath chain.Handle a.Asset) with
      | some e => exact Disk.keeps_refl D
      | none =>
        cases hp : D.createPNGFromURL a.AssetImg (B.GetAssetLogoPath chain.Handle a.Asset) with
        | some e => exact Disk.keeps_refl D
        | none =>
          simp only []
          unfold createInfoJSON
          cases hu : B.GetCoinExploreURL chain a.Asset "" with
          | error e => exact Disk.keeps_withLogo D _
          | ok explorerURL =>
            have hc : (D.withLogo (B.GetAssetLogoPath chain.Handle a.Asset)).createInfoFile
                = D.createInfoFile := rfl
            simp only [hc]
            cases hi : D.createInfoFile (B.GetAssetInfoPath chain.Handle a.Asset)
                ⟨a.Name, B.TypeBEP2, a.MappedAsset, a.Decimals, "", "-", explorerURL,
                  activeStatus, a.Asset⟩ with
            | some e => exact Disk.keeps_withLogo D _
            | none =>
              exact Disk.keeps_trans
                (Disk.keeps_trans (Disk.keeps_withLogo D _)
                  (Disk.keeps_withInfo _ _ _ rfl))
                (fetchMissingAssets_keeps B chain assets _)

theorem fetchMissingAssets_logos_exist (B : BootLib) (chain : Coin) :
    ∀ (assets : List Bep2Asset) (D : Disk),
      (fetchMissingAssets B chain D assets).err = none →
      ∀ a ∈ assets, Skipped B chain (fetchMissingAssets B chain D assets).disk a
  | [], _, _ => by simp
  | b :: assets, D, herr => by
    intro a ha
    by_cases hs : Skipped B chain D b
    · rw [fetchMissingAssets_cons_skipped B chain D b assets hs] at herr ⊢
      rw [List.mem_cons] at ha
      rcases ha with rfl | ha
      · rcases hs with h | h | h
        · exact Or.inl h
        · exact Or.inr (Or.inl h)
        · exact Or.inr (Or.inr ((fetchMissingAssets_keeps B chain assets D).1 _ h))
      · exact fetchMissingAssets_logos_exist B chain assets D herr a ha
    · obtain ⟨explorerURL, heq⟩ := fetchMissingAssets_cons_written B chain D b assets hs herr
      rw [heq] at herr ⊢
      rw [List.mem_cons] at ha
      rcases ha with rfl | ha
      · refine Or.inr (Or.inr ((fetchMissingAssets_keeps B chain assets _).1 _ ?_))
        simp [Disk.withInfo, Disk.withLogo]
      · exact fetchMissingAssets_logos_exist B chain assets _ herr a ha

theorem fetchMissingAssets_no_tokenList (B : BootLib) (chain : Coin) :
    ∀ (assets : List Bep2Asset) (D : Disk),
      ∀ w ∈ (fetchMissingAssets B chain D assets).writes, w.isTokenList = false
  | [], D => by
    rw [fetchMissingAssets]
    simp
  | a :: assets, D => by
    by_cases hs : Skipped B chain D a
    · rw [fetchMissingAssets_cons_skipped B chain D a assets hs]
      exact fetchMissingAssets_no_tokenList B chain assets D
    · have h1 : ¬ (a.AssetImg = "" ∨ a.Decimals = 0) := by
        rintro (h' | h')
        · exact hs (Or.inl h')
        · exact hs (Or.inr (Or.inl h'))
      have h2 : ¬ D.fileExists (B.GetAssetLogoPath chain.Handle a.Asset) = true :=
        fun h' => hs (Or.inr (Or.inr h'))
      rw [fetchMissingAssets, if_neg h1, if_neg h2]
      unfold createLogo
      cases hd : D.createDirPath (B.GetAssetLogoPath chain.Handle a.Asset) with
      | some e => simp [FileWrite.isTokenList]
      | none =>
        cases hp : D.createPNGFromURL a.AssetImg (B.GetAssetLogoPath chain.Handle a.Asset) with
        | some e => simp [FileWrite.isTokenList]
        | none =>
          simp only []
          unfold createInfoJSON
          cases hu : B.GetCoinExploreURL chain a.Asset "" with
          | error e => simp [FileWrite.isTokenList]
          | ok explorerURL =>
            have hc : (D.withLogo (B.GetAssetLogoPath chain.Handle a.Asset)).createInfoFile
                = D.createInfoFile := rfl
            simp only [hc]
            cases hi : D.createInfoFile (B.GetAssetInfoPath chain.Handle a.Asset)
                ⟨a.Name, B.TypeBEP2, a.MappedAsset, a.Decimals, "", "-", explorerURL,
                  activeStatus, a.Asset⟩ with
            | some e => simp [FileWrite.isTokenList]
            | none =>
              intro w hw
              simp only [List.append_assoc, List.cons_append, List.nil_append, List.mem_cons]
                at hw
              rcases hw with rfl | rfl | rfl | hw
              · rfl
              · rfl
              · rfl
              · exact fetchMissingAssets_no_tokenList B chain assets _ w hw

/-- C17.  On every file system, an asset with an empty image URL, with zero decimals, or whose
logo exists at its expected path causes no write, and a list of such assets causes none at
all; every other asset, when the call returns no error, has its directory, its logo and its
asset-info record with status `active` written, and the file system the call leaves holds
the logo at that path and the record as active; after a call that returned no error every asset
with an image URL and non-zero decimals has its logo, hence a second call on the file system
left by it writes nothing and returns no error. -/
theorem fetchMissingAssets_idempotent (B : BootLib) (chain : Coin) (D : Disk)
    (assets : List Bep2Asset) :
    (∀ a : Bep2Asset, Skipped B chain D a →
      fetchMissingAssets B chain D (a :: assets) = fetchMissingAssets B chain D assets) ∧
    ((∀ a ∈ assets, Skipped B chain D a) →
      (fetchMissingAssets B chain D assets).writes = [] ∧
      (fetchMissingAssets B chain D assets).err = none) ∧
    (∀ a : Bep2Asset, ¬ Skipped B chain D a →
      (fetchMissingAssets B chain D (a :: assets)).err = none →
      (∃ (record : AssetInfo) (more : List FileWrite),
        record.Status = activeStatus ∧
        (fetchMissingAssets B chain D (a :: assets)).writes =
          [FileWrite.dir (B.GetAssetLogoPath chain.Handle a.Asset),
            FileWrite.png a.AssetImg (B.GetAssetLogoPath chain.Handle a.Asset),
            FileWrite.info (B.GetAssetInfoPath chain.Handle a.Asset) record] ++ more) ∧
      (fetchMissingAssets B chain D (a :: assets)).disk.fileExists
        (B.GetAssetLogoPath chain.Handle a.Asset) = true ∧
      (fetchMissingAssets B chain D (a :: assets)).disk.readAssetInfo
        (B.GetAssetInfoPath chain.Handle a.Asset) = some ⟨some activeStatus⟩) ∧
    ((fetchMissingAssets B chain D assets).err = none →
      (∀ a ∈ assets, a.AssetImg ≠ "" → a.Decimals ≠ 0 →
        (fetchMissingAssets B chain D assets).disk.fileExists
          (B.GetAssetLogoPath chain.Handle a.Asset) = true) ∧
      (fetchMissingAssets B chain (fetchMissingAssets B chain D assets).disk assets).writes = [] ∧
      (fetchMissingAssets B chain (fetchMissingAssets B chain D assets).disk assets).err
        = none) := by
  refine ⟨fun a hs => fetchMissingAssets_cons_skipped B chain D a assets hs, ?_, ?_, ?_⟩
  · intro h
    rw [fetchMissingAssets_all_skipped B chain D assets h]
    exact ⟨rfl, rfl⟩
  · intro a hs herr
    obtain ⟨explorerURL, heq⟩ := fetchMissingAssets_cons_written B chain D a assets hs herr
    rw [heq]
    have hkeep := fetchMissingAssets_keeps B chain assets
      ((D.withLogo (B.GetAssetLogoPath chain.Handle a.Asset)).withInfo
        (B.GetAssetInfoPath chain.Handle a.Asset) (assetInfoOf B a explorerURL))
    refine ⟨⟨assetInfoOf B a explorerURL, _, rfl, rfl⟩, hkeep.1 _ ?_, hkeep.2 _ ?_⟩
    · simp [Disk.withInfo, Disk.withLogo]
    · simp [Disk.withInfo, assetInfoOf]
  · intro herr
    refine ⟨?_, ?_⟩
    · intro a ha himg hdec
      rcases fetchMissingAssets_logos_exist B chain assets D herr a ha with h | h | h
      · exact absurd h himg
      · exact absurd h hdec
      · exact h
    · rw [fetchMissingAssets_all_skipped B chain _ assets
        (fetchMissingAssets_logos_exist B chain assets D herr)]
      exact ⟨rfl, rfl⟩

/-- C17, witness: of the four sample assets only `NEW-123` is written, with its directory,
logo and active asset-info record, and a second call writes nothing. -/
theorem fetchMissingAssets_idempotent_witness :
    (fetchMissingAssets exBootLib exChain (exDisk none) exAssets).writes =
      [FileWrite.dir "blockchains/binance/assets/NEW-123/logo.png",
        FileWrite.png "https://img.example/new.png"
          "blockchains/binance/assets/NEW-123/logo.png",
        FileWrite.info "blockchains/binance/assets/NEW-123/info.json" exNewInfo] ∧
    ((fetchMissingAssets exBootLib exChain
        (fetchMissingAssets exBootLib exChain (exDisk none) exAssets).disk exAssets).writes
      = [] ∧
    (fetchMissingAssets exBootLib exChain
        (fetchMissingAssets exBootLib exChain (exDisk none) exAssets).disk exAssets).err
      = none) :=
  ⟨by decide,
    ((fetchMissingAssets_idempotent exBootLib exChain (exDisk none) exAssets).2.2.2
      (by decide)).2⟩

/-! ## `UpdateBinanceTokens` -/

/-- C14, amended.  In a run in which all fetches succeed and the market-pair list or the token
list has fewer than 5 entries, an error is returned and no token list document is written;
the calls of writing library functions are those of `fetchMissingAssets`, which runs before
the size check, so that nothing at all is written when no asset is missing locally. -/
theorem UpdateBinanceTokens_floor (B : BootLib) (D : Disk) (ord : MapOrder)
    (bep2AssetList : List Bep2Asset) (marketPairs : List MarketPair)
    (tokenList : List RawToken)
    (hshort : marketPairs.length < 5 ∨ tokenList.length < 5) :
    (UpdateBinanceTokens B D ord
      ⟨Except.ok bep2AssetList, Except.ok marketPairs, Except.ok tokenList⟩).err ≠ none ∧
    (∀ w ∈ (UpdateBinanceTokens B D ord
        ⟨Except.ok bep2AssetList, Except.ok marketPairs, Except.ok tokenList⟩).writes,
      w.isTokenList = false) ∧
    (∀ chain : Coin, B.GetChainFromAssetType B.TypeBEP2 = Except.ok chain →
      (UpdateBinanceTokens B D ord
        ⟨Except.ok bep2AssetList, Except.ok marketPairs, Except.ok tokenList⟩).writes
        = (fetchMissingAssets B chain D bep2AssetList).writes) ∧
    ((∀ chain : Coin, B.GetChainFromAssetType B.TypeBEP2 = Except.ok chain →
        ∀ a ∈ bep2AssetList, Skipped B chain D a) →
      (UpdateBinanceTokens B D ord
        ⟨Except.ok bep2AssetList, Except.ok marketPairs, Except.ok tokenList⟩).writes = []) := by
  have hgen : ∀ W : World, (generateTokenList B.toLib W ord marketPairs tokenList).err ≠ none := by
    intro W
    by_cases hm : marketPairs.length < 5
    · rw [generateTokenList_of_few_pairs B.toLib W ord marketPairs tokenList hm]
      simp
    · rw [generateTokenList_of_few_tokens B.toLib W ord marketPairs tokenList (by omega)
        (by omega)]
      simp
  cases hchain : B.GetChainFromAssetType B.TypeBEP2 with
  | error e =>
    have hrun : UpdateBinanceTokens B D ord
        ⟨Except.ok bep2AssetList, Except.ok marketPairs, Except.ok tokenList⟩
        = ⟨D, [], some e⟩ := by
      simp only [UpdateBinanceTokens, hchain]
    rw [hrun]
    refine ⟨by simp, by simp, ?_, fun _ => rfl⟩
    intro chain hc
    cases hc
  | ok chain =>
    have hrun : (UpdateBinanceTokens B D ord
          ⟨Except.ok bep2AssetList, Except.ok marketPairs, Except.ok tokenList⟩).err ≠ none ∧
        (UpdateBinanceTokens B D ord
          ⟨Except.ok bep2AssetList, Except.ok marketPairs, Except.ok tokenList⟩).writes
          = (fetchMissingAssets B chain D bep2AssetList).writes := by
      simp only [UpdateBinanceTokens, hchain]
      cases hb : (fetchMissingAssets B chain D bep2AssetList).err with
      | some e => exact ⟨by simp, rfl⟩
      | none =>
        simp only []
        cases hg : (generateTokenList B.toLib
            (fetchMissingAssets B chain D bep2AssetList).disk.toWorld ord marketPairs
            tokenList).err with
        | some e => exact ⟨by simp, rfl⟩
        | none => exact absurd hg (hgen _)
    refine ⟨hrun.1, ?_, ?_, ?_⟩
    · rw [hrun.2]
      exact fetchMissingAssets_no_tokenList B chain bep2AssetList D
    · intro chain' hc
      cases hc
      exact hrun.2
    · intro hall
      rw [hrun.2, fetchMissingAssets_all_skipped B chain D bep2AssetList (hall chain rfl)]

/-- C14, witness: with four market pairs and only assets that have a logo, an error is
returned and nothing is written. -/
theorem UpdateBinanceTokens_floor_witness :
    (UpdateBinanceTokens exBootLib (exDisk none) insertionOrder
      ⟨Except.ok (exAssets.drop 1), Except.ok (exPairs.take 4), Except.ok exRawTokens⟩).err
      = some "no markets info is returned from Binance DEX: 4" ∧
    (UpdateBinanceTokens exBootLib (exDisk none) insertionOrder
      ⟨Except.ok (exAssets.drop 1), Except.ok (exPairs.take 4), Except.ok exRawTokens⟩).writes
      = [] :=
  ⟨by decide,
    (UpdateBinanceTokens_floor exBootLib (exDisk none) insertionOrder (exAssets.drop 1)
      (exPairs.take 4) exRawTokens (Or.inl (by decide))).2.2.2
      (fun chain hc a ha => by
        have hchain : chain = exChain := by
          have h' : exBootLib.GetChainFromAssetType exBootLib.TypeBEP2 = Except.ok exChain := rfl
          rw [h'] at hc
          cases hc
          rfl
        subst hchain
        revert a
        decide)⟩

/-- C14 as stated fails when an asset is missing locally: all fetches succeed, the market-pair
list has four entries, the run returns the size error, and the directory, the logo and the
asset-info record of `NEW-123` have been written. -/
theorem UpdateBinanceTokens_writes_before_floor :
    (UpdateBinanceTokens exBootLib (exDisk none) insertionOrder
      ⟨Except.ok exAssets, Except.ok (exPairs.take 4), Except.ok exRawTokens⟩).err
      = some "no markets info is returned from Binance DEX: 4" ∧
    (UpdateBinanceTokens exBootLib (exDisk none) insertionOrder
      ⟨Except.ok exAssets, Except.ok (exPairs.take 4), Except.ok exRawTokens⟩).writes
      = [FileWrite.dir "blockchains/binance/assets/NEW-123/logo.png",
          FileWrite.png "https://img.example/new.png"
            "blockchains/binance/assets/NEW-123/logo.png",
          FileWrite.info "blockchains/binance/assets/NEW-123/info.json" exNewInfo] := by
  decide

end Processor
